import Mathlib

/-!
Verification of the jankins MCP server (a Jenkins adapter exposing
job/build/log data over a tool-calling RPC protocol).

This file gives a shallow embedding of the components the verified claims
are about, translated from the Python sources:

* `src/jankins/cache.py`            — `ResponseCache.get` / `set` / `_evict_oldest`
* `src/jankins/middleware/ratelimit.py` — `RateLimitBucket`, `RateLimiter`
* `src/jankins/mcp/protocol.py`     — `MCPServer.call_tool` parameter validation
* `src/jankins/errors.py`           — `InvalidParamsError` (code -32602)
* `src/jankins/jenkins/progressive.py` — `get_log_chunk` truncation and the
  per-line redaction step of `filter_log`
* `src/jankins/formatters/token_aware.py` — `estimate_tokens`, `format_build`
* `src/jankins/formatters/base.py`  — `format_duration`

Modelling conventions:
* wall-clock instants (`time.time()`) are explicit `ℚ` parameters;
* Python `dict`s are insertion-ordered association lists (assignment replaces
  in place, new keys append, `del` removes);
* `str` values flowing through the UTF-8 truncation path are sequences of
  Unicode code points (`List ℕ`);
* recursive scanners (regex substitution, UTF-8 decoding) are written with an
  explicit fuel argument equal to the input length so that they are structural
  and evaluate by `decide`; fuel-irrelevance lemmas recover the natural
  unfolding equations.
-/

/-! ## ResponseCache (src/jankins/cache.py) -/

/-- Cache entry with expiration (`CacheEntry` dataclass). -/
structure CacheEntry (α : Type) where
  value : α
  expires_at : ℚ
deriving DecidableEq

namespace ResponseCache

variable {α : Type}

/-- Model of `del cache[key]`: remove the (unique) binding of `key`. -/
def delKey : List (String × CacheEntry α) → String → List (String × CacheEntry α)
  | [], _ => []
  | p :: ps, k => if p.1 = k then ps else p :: delKey ps k

/-- Model of `cache[key] = entry`: dict assignment — replace in place, else append. -/
def insertEntry : List (String × CacheEntry α) → String → CacheEntry α →
    List (String × CacheEntry α)
  | [], k, e => [(k, e)]
  | p :: ps, k, e => if p.1 = k then (k, e) :: ps else p :: insertEntry ps k e

/-- Model of `ResponseCache.get`: hit only when present and not expired; an expired
entry is deleted and reported as a miss.  Returns (result, new entry map). -/
def get (entries : List (String × CacheEntry α)) (key : String) (now : ℚ) :
    Option α × List (String × CacheEntry α) :=
  match entries.find? (fun p => p.1 = key) with
  | none => (none, entries)
  | some p =>
    if now > p.2.expires_at then (none, delKey entries key)
    else (some p.2.value, entries)

/-- Model of `min(self._cache.keys(), key=lambda k: ...expires_at)`: Python `min`
keeps the earliest element on ties. -/
def minByExpiry (best : String × CacheEntry α) :
    List (String × CacheEntry α) → String × CacheEntry α
  | [] => best
  | p :: ps => minByExpiry (if p.2.expires_at < best.2.expires_at then p else best) ps

/-- Model of `ResponseCache._evict_oldest`: delete the entry with the earliest
expiration timestamp (no-op on an empty map). -/
def evict_oldest : List (String × CacheEntry α) → List (String × CacheEntry α)
  | [] => []
  | p :: ps => delKey (p :: ps) (minByExpiry p ps).1

/-- Model of `ResponseCache.set`: evict the oldest entry when the map has reached
`max_entries`, then insert the new entry with expiry `now + ttl`. -/
def set (entries : List (String × CacheEntry α)) (max_entries : ℕ) (key : String)
    (v : α) (now ttl : ℚ) : List (String × CacheEntry α) :=
  let e := if max_entries ≤ entries.length then evict_oldest entries else entries
  insertEntry e key ⟨v, now + ttl⟩

/-- A sequence of `set` calls starting from the empty map; each operation
gives the key, the value and the wall-clock time of the call. -/
def applySets (max_entries : ℕ) (ttl : ℚ) (ops : List (String × α × ℚ)) :
    List (String × CacheEntry α) :=
  ops.foldl (fun es op => set es max_entries op.1 op.2.1 op.2.2 ttl) []

end ResponseCache

/-! ## RateLimitBucket / RateLimiter (src/jankins/middleware/ratelimit.py) -/

/-- Token bucket (`RateLimitBucket` dataclass; `__post_init__` sets
`tokens = capacity` and `last_refill = now`). -/
structure RateLimitBucket where
  capacity : ℤ
  refill_rate : ℚ
  tokens : ℚ
  last_refill : ℚ
deriving DecidableEq

/-- Fresh bucket: full, with `last_refill` at creation time. -/
def mkBucket (capacity : ℤ) (refill_rate : ℚ) (now : ℚ) : RateLimitBucket :=
  ⟨capacity, refill_rate, (capacity : ℚ), now⟩

namespace RateLimitBucket

/-- Model of `_refill`: add `elapsed * refill_rate` tokens, clamped to capacity. -/
def refill (b : RateLimitBucket) (now : ℚ) : RateLimitBucket :=
  { b with
    last_refill := now
    tokens := min (b.capacity : ℚ) (b.tokens + (now - b.last_refill) * b.refill_rate) }

/-- Model of `consume`: refill lazily, then take `tk` tokens if at least `tk` are
available. -/
def consume (b : RateLimitBucket) (tk : ℤ) (now : ℚ) : Bool × RateLimitBucket :=
  let br := b.refill now
  if (tk : ℚ) ≤ br.tokens then (true, { br with tokens := br.tokens - (tk : ℚ) })
  else (false, br)

/-- Model of `time_until_available`: refill lazily, then report the wait for `tk`
tokens (`0` when already available). -/
def time_until_available (b : RateLimitBucket) (tk : ℤ) (now : ℚ) :
    ℚ × RateLimitBucket :=
  let br := b.refill now
  if (tk : ℚ) ≤ br.tokens then (0, br)
  else (((tk : ℚ) - br.tokens) / br.refill_rate, br)

end RateLimitBucket

/-- State of a bucket after `k` successive `consume(1)` calls issued at the
same instant `now`. -/
def consumeIter (b : RateLimitBucket) (now : ℚ) : ℕ → RateLimitBucket
  | 0 => b
  | k + 1 => ((consumeIter b now k).consume 1 now).2

/-- Rate limiter state (`RateLimiter`): per-identifier buckets plus the
cleanup bookkeeping. -/
structure RateLimiter where
  burst : ℤ
  refill_rate : ℚ
  buckets : List (String × RateLimitBucket)
  last_cleanup : ℚ
  cleanup_interval : ℚ
deriving DecidableEq

namespace RateLimiter

/-- Model of `RateLimiter.__init__`: `refill_rate = requests_per_minute / 60`, empty
bucket map. -/
def init (requests_per_minute burst : ℤ) (cleanup_interval now : ℚ) : RateLimiter :=
  ⟨burst, (requests_per_minute : ℚ) / 60, [], now, cleanup_interval⟩

/-- Model of `_cleanup_old_buckets`: when a cleanup is due, drop every bucket that is
full (`tokens >= capacity`) and idle past twice the cleanup interval. -/
def cleanup_old_buckets (s : RateLimiter) (now : ℚ) : RateLimiter :=
  if now - s.last_cleanup < s.cleanup_interval then s
  else
    { s with
      buckets := s.buckets.filter (fun p =>
        !(decide ((p.2.capacity : ℚ) ≤ p.2.tokens ∧
          p.2.last_refill < now - s.cleanup_interval * 2)))
      last_cleanup := now }

/-- First bucket bound to `id` (dict lookup). -/
def lookupBucket (l : List (String × RateLimitBucket)) (id : String) :
    Option RateLimitBucket :=
  (l.find? (fun p => p.1 = id)).map (fun p => p.2)

/-- Store the (mutated) bucket back under `id` (dict assignment). -/
def updateBucket : List (String × RateLimitBucket) → String → RateLimitBucket →
    List (String × RateLimitBucket)
  | [], id, b => [(id, b)]
  | p :: ps, id, b => if p.1 = id then (id, b) :: ps else p :: updateBucket ps id b

/-- Model of `check_rate_limit`: run the periodic cleanup, get or create the
identifier's bucket, try to consume one token; on denial also compute
`retry_after` via `time_until_available`.  Returns
(allowed, retry_after, new limiter state). -/
def check_rate_limit (s : RateLimiter) (id : String) (now : ℚ) :
    Bool × Option ℚ × RateLimiter :=
  let s1 := cleanup_old_buckets s now
  let bks := if (lookupBucket s1.buckets id).isSome then s1.buckets
    else s1.buckets ++ [(id, mkBucket s.burst s.refill_rate now)]
  -- `self.buckets[identifier]` after the get-or-create above: the stored
  -- bucket when one exists, else the just-created fresh bucket.
  let b := (lookupBucket s1.buckets id).getD (mkBucket s.burst s.refill_rate now)
  let r := b.consume 1 now
  if r.1 then (true, none, { s1 with buckets := updateBucket bks id r.2 })
  else
    let t := r.2.time_until_available 1 now
    (false, some t.1, { s1 with buckets := updateBucket bks id t.2 })

/-- The bucket a `check_rate_limit (s, id)` call operates on: the one stored
for `id` after the periodic cleanup, or a fresh full bucket of capacity
`burst` when `id` has none yet. -/
def bucketFor (s : RateLimiter) (id : String) (now : ℚ) : RateLimitBucket :=
  (lookupBucket (cleanup_old_buckets s now).buckets id).getD
    (mkBucket s.burst s.refill_rate now)

end RateLimiter

/-! ## MCP protocol: call_tool validation (src/jankins/mcp/protocol.py) -/

/-- Tool parameter (`ToolParameter` dataclass; the `type`, `description`,
`default` and `enum` fields are presentation-only and play no role in
`call_tool`, so they are not carried here). -/
structure ToolParameter where
  name : String
  required : Bool
deriving DecidableEq

/-- Tool definition (`Tool` dataclass); `hasHandler` records whether the
`handler` field is bound (its behaviour is outside the dispatch contract). -/
structure Tool where
  name : String
  parameters : List ToolParameter
  hasHandler : Bool
deriving DecidableEq

/-- The MCP server's registry state (`self.tools`, an insertion-ordered dict
keyed by tool name). -/
structure MCPServer where
  tools : List Tool
deriving DecidableEq

/-- The data of a raised `JankinsError` that `call_tool` populates:
JSON-RPC code, message and remediation hint. -/
structure JankinsErrorData where
  code : ℤ
  message : String
  hint : String
deriving DecidableEq

/-- Model of `ErrorCode.INVALID_PARAMS`. -/
def INVALID_PARAMS : ℤ := -32602

/-- Model of `InvalidParamsError(message, hint=...)`. -/
def invalidParamsError (message hint : String) : JankinsErrorData :=
  ⟨INVALID_PARAMS, message, hint⟩

/-- Outcome of a `call_tool` whose validation succeeded: the bound handler is
invoked (the handler's own result is outside the dispatch contract). -/
inductive CallOutcome where
  | handlerInvoked
deriving DecidableEq

/-- Model of `MCPServer.call_tool` up to handler invocation: unknown tool and missing
handler raise `InvalidParamsError`; then every required parameter absent from
`arguments` is collected and, if any, reported in one error.  `argKeys` is
the key set of the `arguments` dict. -/
def MCPServer.call_tool (s : MCPServer) (name : String) (argKeys : List String) :
    Except JankinsErrorData CallOutcome :=
  match s.tools.find? (fun t => t.name = name) with
  | none =>
    .error (invalidParamsError ("Tool \x27" ++ name ++ "\x27 not found")
      ("Available tools: " ++ String.intercalate ", " (s.tools.map Tool.name)))
  | some tool =>
    if tool.hasHandler = false then
      .error (invalidParamsError ("Tool \x27" ++ name ++ "\x27 has no handler registered")
        "This is a server configuration error")
    else
      let required_params := (tool.parameters.filter (fun p => p.required)).map
        ToolParameter.name
      let missing_params := required_params.filter (fun p => !(argKeys.contains p))
      if missing_params.isEmpty then .ok .handlerInvoked
      else
        .error (invalidParamsError
          ("Missing required parameters: " ++ String.intercalate ", " missing_params)
          ("Tool \x27" ++ name ++ "\x27 requires: " ++
            String.intercalate ", " required_params))

/-! ## estimate_tokens (src/jankins/formatters/token_aware.py) -/

/-- Python `str.split()` whitespace (the ASCII whitespace characters;
`split()` splits on runs of whitespace and drops empty fields). -/
def isPySpace (c : Char) : Bool :=
  decide (c = ' ' ∨ c = '\t' ∨ c = '\n' ∨ c = '\r' ∨ c = '\x0b' ∨ c = '\x0c')

/-- Worker for `str.split()`: `acc` holds the current word reversed. -/
def pySplitGo : List Char → List Char → List (List Char)
  | [], acc => if acc.isEmpty then [] else [acc.reverse]
  | c :: cs, acc =>
    if isPySpace c then
      if acc.isEmpty then pySplitGo cs [] else acc.reverse :: pySplitGo cs []
    else pySplitGo cs (c :: acc)

/-- Model of `text.split()`. -/
def pySplit (s : String) : List (List Char) := pySplitGo s.data []

/-- Model of `len(text.split())`. -/
def word_count (s : String) : ℕ := (pySplit s).length

/-- Model of `estimate_tokens` in the no-tokenizer fallback branch:
`int(len(text.split()) * 0.75)`.  The float product is exact (0.75 = 3/4 and
the product of a 53-bit integer with 3/4 is exactly representable), and
`int()` truncates toward zero, which on a non-negative value is the floor. -/
def estimate_tokens (s : String) : ℤ := Int.floor ((word_count s : ℚ) * (3 / 4))

/-- Python's built-in `round` on an exactly-represented value: round half to
even.  Modelled from the spec sentence ``fall back to `round(word_count *
0.75)` `` for comparison with the code's `int(...)` truncation; also reused
for `"%.1f"`-style formatting in `format_duration`. -/
def pythonRound (q : ℚ) : ℤ :=
  if q - (Int.floor q : ℚ) < 1 / 2 then Int.floor q
  else if 1 / 2 < q - (Int.floor q : ℚ) then Int.floor q + 1
  else if Int.floor q % 2 = 0 then Int.floor q else Int.floor q + 1

/-! ## Redaction (src/jankins/jenkins/progressive.py, filter_log) -/

/-- The replacement text for a masked secret run. -/
def redactedText : List Char := "[REDACTED]".data

/-- Worker for `SECRET_MASK.sub('[REDACTED]', line)` with
`SECRET_MASK = re.compile(r'\*{4,}')`: scan left to right; a maximal run of
4 or more asterisks is replaced, shorter runs are kept.  `fuel` bounds the
recursion (any `fuel ≥` input length gives the same result). -/
def maskGo : ℕ → List Char → List Char
  | 0, l => l
  | _ + 1, [] => []
  | fuel + 1, c :: cs =>
    if c = '*' then
      let run := (c :: cs).takeWhile (fun x => x = '*')
      let rest := (c :: cs).dropWhile (fun x => x = '*')
      if 4 ≤ run.length then redactedText ++ maskGo fuel rest
      else run ++ maskGo fuel rest
    else c :: maskGo fuel cs

/-- Model of `SECRET_MASK.sub('[REDACTED]', line)`. -/
def maskSecrets (l : List Char) : List Char := maskGo l.length l

/-- Model of `[0-?]` (CSI parameter bytes 0x30–0x3F). -/
def isCsiParam (c : Char) : Bool := decide (0x30 ≤ c.toNat ∧ c.toNat ≤ 0x3F)

/-- Model of the CSI intermediate-byte class (space through slash, bytes
0x20–0x2F). -/
def isCsiInter (c : Char) : Bool := decide (0x20 ≤ c.toNat ∧ c.toNat ≤ 0x2F)

/-- Model of `[@-~]` (CSI final bytes 0x40–0x7E). -/
def isCsiFinal (c : Char) : Bool := decide (0x40 ≤ c.toNat ∧ c.toNat ≤ 0x7E)

/-- Model of `[@-Z\\-_]` (single-character escapes 0x40–0x5A and 0x5C–0x5F; note
`[` itself, 0x5B, is excluded and handled by the CSI alternative). -/
def isEscSingle (c : Char) : Bool :=
  decide ((0x40 ≤ c.toNat ∧ c.toNat ≤ 0x5A) ∨ (0x5C ≤ c.toNat ∧ c.toNat ≤ 0x5F))

/-- Length of the match of the `ANSI_ESCAPE` pattern (ESC followed by either
one single-character-escape byte, or by an open bracket, a run of parameter
bytes, a run of intermediate bytes and one final byte) at the head of the
input, if any.  The two alternatives are disjoint on the character after ESC,
and the starred classes are pairwise disjoint, so the greedy match is
deterministic and needs no backtracking. -/
def ansiMatchLen : List Char → Option ℕ
  | [] => none
  | e :: rest =>
    if e = '\x1b' then
      match rest with
      | [] => none
      | c :: rest2 =>
        if isEscSingle c then some 2
        else if c = '[' then
          let ps := rest2.takeWhile isCsiParam
          let rest3 := rest2.dropWhile isCsiParam
          let ins := rest3.takeWhile isCsiInter
          let rest4 := rest3.dropWhile isCsiInter
          match rest4 with
          | [] => none
          | f :: _ => if isCsiFinal f then some (2 + ps.length + ins.length + 1) else none
        else none
    else none

/-- Worker for `ANSI_ESCAPE.sub('', line)`: at each position delete the
leftmost match and continue after it, otherwise keep the character. -/
def stripGo : ℕ → List Char → List Char
  | 0, l => l
  | _ + 1, [] => []
  | fuel + 1, c :: cs =>
    match ansiMatchLen (c :: cs) with
    | some n => stripGo fuel (cs.drop (n - 1))
    | none => c :: stripGo fuel cs

/-- Model of `ANSI_ESCAPE.sub('', line)`. -/
def stripAnsi (l : List Char) : List Char := stripGo l.length l

/-- The per-line redaction step of `filter_log` (executed when `redact` is
set): ANSI stripping followed by secret masking. -/
def redactLine (l : List Char) : List Char := maskSecrets (stripAnsi l)

/-! ## UTF-8 truncation (src/jankins/jenkins/progressive.py, get_log_chunk) -/

/-- UTF-8 encoding of one code point (`str.encode('utf-8')` per character;
code points are the `ℕ` values of the `str` characters). -/
def utf8EncodeChar (v : ℕ) : List ℕ :=
  if v < 0x80 then [v]
  else if v < 0x800 then [0xC0 + v / 64, 0x80 + v % 64]
  else if v < 0x10000 then [0xE0 + v / 4096, 0x80 + v / 64 % 64, 0x80 + v % 64]
  else [0xF0 + v / 262144, 0x80 + v / 4096 % 64, 0x80 + v / 64 % 64, 0x80 + v % 64]

/-- Model of `text.encode('utf-8')`. -/
def utf8Encode : List ℕ → List ℕ
  | [] => []
  | v :: vs => utf8EncodeChar v ++ utf8Encode vs

/-- A continuation byte `0x80–0xBF`. -/
def isCont (b : ℕ) : Bool := decide (0x80 ≤ b ∧ b ≤ 0xBF)

/-- Admissible second byte of a three-byte sequence with lead `b` (rules out
overlong encodings and surrogates, as CPython's decoder does). -/
def cont2ok3 (b b1 : ℕ) : Bool :=
  if b = 0xE0 then decide (0xA0 ≤ b1 ∧ b1 ≤ 0xBF)
  else if b = 0xED then decide (0x80 ≤ b1 ∧ b1 ≤ 0x9F)
  else isCont b1

/-- Admissible second byte of a four-byte sequence with lead `b` (rules out
overlong encodings and code points above U+10FFFF). -/
def cont2ok4 (b b1 : ℕ) : Bool :=
  if b = 0xF0 then decide (0x90 ≤ b1 ∧ b1 ≤ 0xBF)
  else if b = 0xF4 then decide (0x80 ≤ b1 ∧ b1 ≤ 0x8F)
  else isCont b1

/-- Worker for `bytes.decode('utf-8', errors='ignore')`: decode complete
well-formed sequences; on an ill-formed byte skip the maximal subpart and
resume; drop a truncated sequence at the end of the input.  `fuel` bounds the
recursion (any `fuel ≥` input length gives the same result). -/
def utf8DecodeGo : ℕ → List ℕ → List ℕ
  | 0, _ => []
  | fuel + 1, bytes =>
    match bytes with
    | [] => []
    | b :: bs =>
      if b < 0x80 then b :: utf8DecodeGo fuel bs
      else if b < 0xC2 then utf8DecodeGo fuel bs
      else if b ≤ 0xDF then
        match bs with
        | [] => []
        | b1 :: bs1 =>
          if isCont b1 then ((b - 0xC0) * 64 + (b1 - 0x80)) :: utf8DecodeGo fuel bs1
          else utf8DecodeGo fuel bs
      else if b ≤ 0xEF then
        match bs with
        | [] => []
        | b1 :: bs1 =>
          if cont2ok3 b b1 then
            match bs1 with
            | [] => []
            | b2 :: bs2 =>
              if isCont b2 then
                ((b - 0xE0) * 4096 + (b1 - 0x80) * 64 + (b2 - 0x80)) :: utf8DecodeGo fuel bs2
              else utf8DecodeGo fuel bs1
          else utf8DecodeGo fuel bs
      else if b ≤ 0xF4 then
        match bs with
        | [] => []
        | b1 :: bs1 =>
          if cont2ok4 b b1 then
            match bs1 with
            | [] => []
            | b2 :: bs2 =>
              if isCont b2 then
                match bs2 with
                | [] => []
                | b3 :: bs3 =>
                  if isCont b3 then
                    ((b - 0xF0) * 262144 + (b1 - 0x80) * 4096 + (b2 - 0x80) * 64 +
                      (b3 - 0x80)) :: utf8DecodeGo fuel bs3
                  else utf8DecodeGo fuel bs2
              else utf8DecodeGo fuel bs1
          else utf8DecodeGo fuel bs
      else utf8DecodeGo fuel bs

/-- Model of `bytes.decode('utf-8', errors='ignore')`. -/
def utf8DecodeIgnore (bytes : List ℕ) : List ℕ := utf8DecodeGo bytes.length bytes

/-- A valid Unicode scalar value (what a Python `str` character can hold as
produced by a UTF-8 decode: not a surrogate, at most U+10FFFF). -/
def ValidCp (v : ℕ) : Prop := v < 0x110000 ∧ ¬(0xD800 ≤ v ∧ v ≤ 0xDFFF)

instance (v : ℕ) : Decidable (ValidCp v) := by unfold ValidCp; infer_instance

/-- Model of `LogChunk` dataclass (the `end` field is called `stop` here because `end`
is reserved in Lean). -/
structure LogChunk where
  text : List ℕ
  start : ℤ
  stop : ℤ
  has_more : Bool
deriving DecidableEq

/-- Model of `ProgressiveLogClient.get_log_chunk` after `get_progressive_text` has
returned `(payload, next_start, upstream_more)`: truncate to `max_bytes`
UTF-8 bytes when the condition `max_bytes and len(text.encode('utf-8')) >
max_bytes` holds (note Python truthiness: `max_bytes = 0` disables
truncation), re-decoding with `errors='ignore'` and forcing `has_more`. -/
def get_log_chunk (payload : List ℕ) (next_start : ℤ) (upstream_more : Bool)
    (start : ℤ) (max_bytes : Option ℕ) : LogChunk :=
  match max_bytes with
  | some m =>
    if m ≠ 0 ∧ m < (utf8Encode payload).length then
      { text := utf8DecodeIgnore ((utf8Encode payload).take m)
        start := start, stop := next_start, has_more := true }
    else { text := payload, start := start, stop := next_start, has_more := upstream_more }
  | none => { text := payload, start := start, stop := next_start, has_more := upstream_more }

/-! ## JSON serialization size and format_build
(src/jankins/formatters/token_aware.py, base.py) -/

/-- JSON values.  Arrays and objects are encoded spine-style (`arrCons` /
`objCons` chains ending in `arrNil` / `objNil`) so that all functions below
are plain structural recursions. -/
inductive JValue where
  | null
  | bool (b : Bool)
  | num (n : ℤ)
  | str (s : String)
  | arrNil
  | arrCons (head : JValue) (tail : JValue)
  | objNil
  | objCons (key : String) (val : JValue) (tail : JValue)
deriving DecidableEq

/-- Serialized length of one character inside a JSON string, as emitted by
`json.dumps` with its defaults (`ensure_ascii=True`): two-character escapes
for `"`, `\` and the C0 controls with short forms, `\uXXXX` for other
controls and all non-ASCII characters (two surrogate escapes beyond the
BMP). -/
def escLen (c : Char) : ℕ :=
  if c = '"' ∨ c = '\\' then 2
  else if c.toNat < 0x20 then
    if c = '\x08' ∨ c = '\t' ∨ c = '\n' ∨ c = '\x0c' ∨ c = '\r' then 2 else 6
  else if c.toNat < 0x7F then 1
  else if c.toNat < 0x10000 then 6
  else 12

/-- Length of `json.dumps` of a string (the two quotes plus escaped chars). -/
def jstrLen (s : String) : ℕ := 2 + (s.data.map escLen).sum

/-- Length of `json.dumps(v)` with default separators (`", "` and `": "`).
For a container of `n ≥ 1` elements the brackets plus `n - 1` two-character
separators contribute `2 * n`, so each element accounts for its own length
plus 2. -/
def jsonLen : JValue → ℕ
  | .null => 4
  | .bool true => 4
  | .bool false => 5
  | .num n => (toString n).length
  | .str s => jstrLen s
  | .arrNil => 2
  | .arrCons h .arrNil => jsonLen h + 2
  | .arrCons h t => jsonLen h + 2 + jsonLen t
  | .objNil => 2
  | .objCons k v .objNil => jstrLen k + 2 + jsonLen v + 2
  | .objCons k v t => jstrLen k + 2 + jsonLen v + 2 + jsonLen t

/-- Model of `build[key]` / `build.get(key)`: first binding in the object spine. -/
def dget : JValue → String → Option JValue
  | .objCons k v t, key => if k = key then some v else dget t key
  | _, _ => none

/-- Model of `build.get(key, default)`. -/
def dgetD (j : JValue) (key : String) (d : JValue) : JValue := (dget j key).getD d

/-- A value usable as an `int` argument (Python would raise `TypeError`
otherwise). -/
def asInt : JValue → Option ℤ
  | .num n => some n
  | _ => none

/-- Whether the value is a dict (supports `.get`). -/
def isObjSpine : JValue → Bool
  | .objNil => true
  | .objCons _ _ t => isObjSpine t
  | _ => false

/-- Python `len()` of a JSON value (`str`, list or dict; `TypeError`
otherwise). -/
def pyLen : JValue → Option ℕ
  | .str s => some s.length
  | .arrNil => some 0
  | .arrCons _ t => (pyLen t).map (fun n => n + 1)
  | .objNil => some 0
  | .objCons _ _ t => (pyLen t).map (fun n => n + 1)
  | _ => none

/-- Model of `format_duration` (src/jankins/formatters/base.py).  The
`f"{milliseconds / 1000:.1f}s"` branch renders one decimal; its rounding is
modelled with `pythonRound` on the exact quotient (CPython rounds the nearest
double, which agrees except on ties perturbed by binary rounding). -/
def format_duration (ms : ℤ) : String :=
  if ms < 1000 then toString ms ++ "ms"
  else if ms < 60000 then
    let t := pythonRound ((ms : ℚ) / 100)
    toString (t / 10) ++ "." ++ toString (t % 10) ++ "s"
  else if ms < 3600000 then
    toString (ms / 60000) ++ "m " ++ toString ((ms % 60000) / 1000) ++ "s"
  else
    toString (ms / 3600000) ++ "h " ++ toString ((ms % 3600000) / 60000) ++ "m"

/-- Model of `OutputFormat` enum. -/
inductive OutputFormat where
  | summary
  | full
  | diff
  | ids
  | table
deriving DecidableEq

/-- Model of `format_build` in `ids` mode: number, url and result only.  `none`
models the `KeyError` when `build["number"]` or `build["url"]` is absent. -/
def format_build_ids (build : JValue) : Option JValue :=
  match dget build "number", dget build "url" with
  | some n, some u =>
    some (.objCons "number" n (.objCons "url" u
      (.objCons "result" (dgetD build "result" .null) .objNil)))
  | _, _ => none

/-- Model of `format_build` in `summary` mode.  `render_timestamp` abstracts
`format_timestamp` (it calls `datetime.fromtimestamp(...).isoformat()`, whose
output depends on the host time zone); `none` models the `KeyError` /
`TypeError` paths of the Python code. -/
def format_build_summary (render_timestamp : ℤ → String) (build : JValue) :
    Option JValue :=
  match dget build "number", dget build "url" with
  | some n, some u =>
    match asInt (dgetD build "duration" (.num 0)),
        asInt (dgetD build "timestamp" (.num 0)) with
    | some dur, some ts =>
      let cs := dgetD build "changeSet" .objNil
      if isObjSpine cs then
        match pyLen (dgetD cs "items" .arrNil), pyLen (dgetD build "artifacts" .arrNil) with
        | some changes, some arts =>
          some (.objCons "number" n
            (.objCons "result" (dgetD build "result" .null)
            (.objCons "duration" (.str (format_duration dur))
            (.objCons "timestamp" (.str (render_timestamp ts))
            (.objCons "building" (dgetD build "building" (.bool false))
            (.objCons "url" u
            (.objCons "changes_count" (.num (changes : ℤ))
            (.objCons "artifacts_count" (.num (arts : ℤ)) .objNil))))))))
        | _, _ => none
      else none
    | _, _ => none
  | _, _ => none

/-- Model of `TokenAwareFormatter.format_build`: `ids` and `summary` build projections,
every other mode (including `full`) falls through to the raw build object. -/
def format_build (render_timestamp : ℤ → String) (build : JValue) :
    OutputFormat → Option JValue
  | .ids => format_build_ids build
  | .summary => format_build_summary render_timestamp build
  | _ => some build

/-! ## Lemmas about the cache model -/

namespace ResponseCache

variable {α : Type}

theorem length_delKey_of_mem {l : List (String × CacheEntry α)} {k : String}
    (h : ∃ p ∈ l, p.1 = k) : (delKey l k).length + 1 = l.length := by
  induction l with
  | nil => rcases h with ⟨p, hp, _⟩; cases hp
  | cons q l ih =>
    by_cases hq : q.1 = k
    · simp [delKey, hq]
    · rcases h with ⟨p, hp, hpk⟩
      rcases List.mem_cons.1 hp with rfl | hpl
      · exact absurd hpk hq
      · simp only [delKey, if_neg hq, List.length_cons]
        rw [← ih ⟨p, hpl, hpk⟩]

theorem mem_delKey_of_ne_key {l : List (String × CacheEntry α)} {k : String}
    {q : String × CacheEntry α} (hq : q ∈ l) (hne : q.1 ≠ k) : q ∈ delKey l k := by
  induction l with
  | nil => cases hq
  | cons r l ih =>
    by_cases hr : r.1 = k
    · simp only [delKey, if_pos hr]
      rcases List.mem_cons.1 hq with rfl | hql
      · exact absurd hr hne
      · exact hql
    · simp only [delKey, if_neg hr]
      rcases List.mem_cons.1 hq with rfl | hql
      · exact List.mem_cons_self _ _
      · exact List.mem_cons_of_mem _ (ih hql)

theorem not_mem_delKey_self {l : List (String × CacheEntry α)}
    (hnd : (l.map Prod.fst).Nodup) {p : String × CacheEntry α} (hp : p ∈ l) :
    p ∉ delKey l p.1 := by
  induction l with
  | nil => cases hp
  | cons q l ih =>
    simp only [List.map_cons, List.nodup_cons] at hnd
    by_cases hq : q.1 = p.1
    · simp only [delKey, if_pos hq]
      intro hmem
      exact hnd.1 (hq ▸ List.mem_map_of_mem Prod.fst hmem)
    · simp only [delKey, if_neg hq]
      intro hmem
      rcases List.mem_cons.1 hmem with rfl | hmem2
      · exact hq rfl
      · rcases List.mem_cons.1 hp with rfl | hpl
        · exact hq rfl
        · exact ih hnd.2 hpl hmem2

theorem length_insertEntry_le (l : List (String × CacheEntry α)) (k : String)
    (e : CacheEntry α) : (insertEntry l k e).length ≤ l.length + 1 := by
  induction l with
  | nil => simp [insertEntry]
  | cons q l ih =>
    by_cases hq : q.1 = k
    · simp [insertEntry, hq]
    · simp only [insertEntry, if_neg hq, List.length_cons]
      omega

theorem minByExpiry_mem (b : String × CacheEntry α) (l : List (String × CacheEntry α)) :
    minByExpiry b l ∈ b :: l := by
  induction l generalizing b with
  | nil => simp [minByExpiry]
  | cons p ps ih =>
    simp only [minByExpiry]
    have h := ih (if p.2.expires_at < b.2.expires_at then p else b)
    rcases List.mem_cons.1 h with heq | hmem
    · rw [heq]
      by_cases hc : p.2.expires_at < b.2.expires_at
      · simp only [if_pos hc]
        exact List.mem_cons_of_mem _ (List.mem_cons_self _ _)
      · simp only [if_neg hc]
        exact List.mem_cons_self _ _
    · exact List.mem_cons_of_mem _ (List.mem_cons_of_mem _ hmem)

theorem minByExpiry_le (b : String × CacheEntry α) (l : List (String × CacheEntry α)) :
    ∀ q ∈ b :: l, (minByExpiry b l).2.expires_at ≤ q.2.expires_at := by
  induction l generalizing b with
  | nil =>
    intro q hq
    rcases List.mem_cons.1 hq with rfl | h
    · exact le_refl _
    · cases h
  | cons p ps ih =>
    intro q hq
    have hstep := ih (if p.2.expires_at < b.2.expires_at then p else b)
    have hminb : (minByExpiry b (p :: ps)).2.expires_at ≤ b.2.expires_at := by
      simp only [minByExpiry]
      by_cases hc : p.2.expires_at < b.2.expires_at
      · exact le_trans (hstep _ (by simp [if_pos hc])) (le_of_lt hc)
      · exact hstep _ (by simp [if_pos hc, if_neg hc])
    have hminp : (minByExpiry b (p :: ps)).2.expires_at ≤ p.2.expires_at := by
      simp only [minByExpiry]
      by_cases hc : p.2.expires_at < b.2.expires_at
      · exact hstep _ (by simp [if_pos hc])
      · exact le_trans (hstep _ (by simp [if_neg hc])) (le_of_not_lt hc)
    rcases List.mem_cons.1 hq with rfl | hq2
    · exact hminb
    · rcases List.mem_cons.1 hq2 with rfl | hq3
      · exact hminp
      · simp only [minByExpiry]
        exact hstep _ (List.mem_cons_of_mem _ hq3)

theorem length_evict_oldest {l : List (String × CacheEntry α)} (h : l ≠ []) :
    (evict_oldest l).length + 1 = l.length := by
  match l, h with
  | p :: ps, _ =>
    simp only [evict_oldest]
    exact length_delKey_of_mem ⟨minByExpiry p ps, minByExpiry_mem p ps, rfl⟩

theorem length_set_le (entries : List (String × CacheEntry α)) (max_entries : ℕ)
    (key : String) (v : α) (now ttl : ℚ) (hmax : 1 ≤ max_entries)
    (h : entries.length ≤ max_entries) :
    (set entries max_entries key v now ttl).length ≤ max_entries := by
  unfold set
  by_cases hfull : max_entries ≤ entries.length
  · have hne : entries ≠ [] := by
      intro heq
      rw [heq] at hfull
      simp at hfull
      omega
    simp only [if_pos hfull]
    have h1 := length_evict_oldest (l := entries) hne
    have h2 := length_insertEntry_le (evict_oldest entries) key ⟨v, now + ttl⟩
    omega
  · simp only [if_neg hfull]
    have h2 := length_insertEntry_le entries key ⟨v, now + ttl⟩
    omega

theorem applySets_length_le (max_entries : ℕ) (ttl : ℚ) (hmax : 1 ≤ max_entries)
    (ops : List (String × α × ℚ)) :
    (applySets max_entries ttl ops).length ≤ max_entries := by
  suffices h : ∀ es : List (String × CacheEntry α), es.length ≤ max_entries →
      (ops.foldl (fun es op => set es max_entries op.1 op.2.1 op.2.2 ttl) es).length ≤
        max_entries by
    exact h [] (by simp)
  induction ops with
  | nil => intro es hes; simpa using hes
  | cons op ops ih =>
    intro es hes
    exact ih _ (length_set_le es max_entries op.1 op.2.1 op.2.2 ttl hmax hes)

end ResponseCache

theorem responseCache_eq_of_mem_keyNodup {α : Type} {l : List (String × CacheEntry α)}
    (hnd : (l.map Prod.fst).Nodup) {p q : String × CacheEntry α}
    (hp : p ∈ l) (hq : q ∈ l) (hk : p.1 = q.1) : p = q := by
  induction l with
  | nil => cases hp
  | cons r ls ih =>
    simp only [List.map_cons, List.nodup_cons] at hnd
    rcases List.mem_cons.1 hp with rfl | hpl
    · rcases List.mem_cons.1 hq with rfl | hql
      · rfl
      · exact absurd (hk ▸ List.mem_map_of_mem Prod.fst hql) hnd.1
    · rcases List.mem_cons.1 hq with rfl | hql
      · exact absurd (hk ▸ List.mem_map_of_mem Prod.fst hpl) hnd.1
      · exact ih hnd.2 hpl hql

/-- C3 (corrected).  `ResponseCache.get` returns the stored value iff an
entry for the key is present and `now ≤ expires_at` (the code treats
`now = expires_at` as a hit, since it only expires on `time.time() >
expires_at`); when the entry is present but expired (`expires_at < now`),
the lookup misses and deletes the entry, so the map shrinks by one. -/
theorem responseCache_get_ttl_and_eviction {α : Type}
    (entries : List (String × CacheEntry α)) (key : String) (now : ℚ) :
    (∀ v : α, (ResponseCache.get entries key now).1 = some v ↔
      ∃ p, entries.find? (fun q => q.1 = key) = some p ∧
        now ≤ p.2.expires_at ∧ p.2.value = v)
    ∧ (∀ p, entries.find? (fun q => q.1 = key) = some p → p.2.expires_at < now →
      (ResponseCache.get entries key now).1 = none ∧
      (ResponseCache.get entries key now).2 = ResponseCache.delKey entries key ∧
      (ResponseCache.get entries key now).2.length + 1 = entries.length) := by
  constructor
  · intro v
    unfold ResponseCache.get
    cases hfind : entries.find? (fun q => q.1 = key) with
    | none => simp
    | some p =>
      by_cases hx : now > p.2.expires_at
      · have hnle : ¬ now ≤ p.2.expires_at := not_le.mpr hx
        simp [if_pos hx, hnle]
      · have hle : now ≤ p.2.expires_at := not_lt.1 hx
        simp only [if_neg hx]
        constructor
        · intro h
          exact ⟨p, rfl, hle, by simpa using h⟩
        · rintro ⟨q, hq, _, rfl⟩
          simp only [Option.some.injEq] at hq
          rw [hq]
  · intro p hp hlt
    have hmem : p ∈ entries := List.mem_of_find?_eq_some hp
    have hkey : p.1 = key := by simpa using List.find?_some hp
    have hget : ResponseCache.get entries key now =
        (none, ResponseCache.delKey entries key) := by
      unfold ResponseCache.get
      rw [hp]
      simp [hlt]
    rw [hget]
    exact ⟨rfl, rfl, ResponseCache.length_delKey_of_mem ⟨p, hmem, hkey⟩⟩

theorem responseCache_get_ttl_witness :
    (ResponseCache.get [("k", (⟨7, 5⟩ : CacheEntry ℕ))] "k" 3).1 = some 7 ∧
    (ResponseCache.get [("k", (⟨7, 5⟩ : CacheEntry ℕ))] "k" 9).2.length + 1 = 1 := by
  have h3 := responseCache_get_ttl_and_eviction (α := ℕ) [("k", ⟨7, 5⟩)] "k" 3
  have h9 := responseCache_get_ttl_and_eviction (α := ℕ) [("k", ⟨7, 5⟩)] "k" 9
  refine ⟨(h3.1 7).2 ⟨("k", ⟨7, 5⟩), by decide, by decide, rfl⟩, ?_⟩
  simpa using (h9.2 ("k", ⟨7, 5⟩) (by decide) (by decide)).2.2

theorem responseCache_get_boundary_cex :
    (ResponseCache.get [("k", (⟨0, 5⟩ : CacheEntry ℕ))] "k" 5).1 = some 0 ∧
    ¬((5 : ℚ) < 5) := by
  exact ⟨by decide, by decide⟩

/-- C4 (corrected, assuming `max_entries ≥ 1`; with `max_entries = 0` a
single `set` already grows the map to one entry).  Any sequence of `set`
calls keeps the map at `max_entries` entries or fewer; and whenever a `set`
happens on a map that has reached `max_entries`, exactly one entry — one
with the earliest expiration timestamp among the current entries — is
deleted before the insertion. -/
theorem responseCache_set_bound_and_evicts_earliest {α : Type} (max_entries : ℕ)
    (ttl : ℚ) (hmax : 1 ≤ max_entries) :
    (∀ ops : List (String × α × ℚ),
      (ResponseCache.applySets max_entries ttl ops).length ≤ max_entries)
    ∧ (∀ (entries : List (String × CacheEntry α)) (key : String) (v : α) (now : ℚ),
      max_entries ≤ entries.length →
      ∃ p, p ∈ entries ∧ (∀ q ∈ entries, p.2.expires_at ≤ q.2.expires_at) ∧
        ResponseCache.set entries max_entries key v now ttl =
          ResponseCache.insertEntry (ResponseCache.delKey entries p.1) key
            ⟨v, now + ttl⟩ ∧
        (ResponseCache.delKey entries p.1).length + 1 = entries.length ∧
        ((entries.map Prod.fst).Nodup → p ∉ ResponseCache.delKey entries p.1 ∧
          ∀ q ∈ entries, q ≠ p → q ∈ ResponseCache.delKey entries p.1)) := by
  constructor
  · exact ResponseCache.applySets_length_le max_entries ttl hmax
  · intro entries key v now hfull
    cases entries with
    | nil => simp at hfull; omega
    | cons e es =>
      refine ⟨ResponseCache.minByExpiry e es, ResponseCache.minByExpiry_mem e es,
        ResponseCache.minByExpiry_le e es, ?_, ?_, ?_⟩
      · simp only [ResponseCache.set, if_pos hfull, ResponseCache.evict_oldest]
      · exact ResponseCache.length_delKey_of_mem
          ⟨_, ResponseCache.minByExpiry_mem e es, rfl⟩
      · intro hnd
        refine ⟨ResponseCache.not_mem_delKey_self hnd
          (ResponseCache.minByExpiry_mem e es), ?_⟩
        intro q hq hne
        refine ResponseCache.mem_delKey_of_ne_key hq ?_
        intro hkey
        exact hne (responseCache_eq_of_mem_keyNodup hnd hq
          (ResponseCache.minByExpiry_mem e es) hkey)

theorem responseCache_set_bound_witness :
    (ResponseCache.applySets 1 1 [("a", 0, 0), ("b", 1, 0)] :
      List (String × CacheEntry ℕ)).length ≤ 1 ∧
    ∃ p, p ∈ [("a", (⟨0, 5⟩ : CacheEntry ℕ))] ∧
      (∀ q ∈ [("a", (⟨0, 5⟩ : CacheEntry ℕ))], p.2.expires_at ≤ q.2.expires_at) ∧
      ResponseCache.set [("a", (⟨0, 5⟩ : CacheEntry ℕ))] 1 "b" 1 0 1 =
        ResponseCache.insertEntry
          (ResponseCache.delKey [("a", (⟨0, 5⟩ : CacheEntry ℕ))] p.1) "b" ⟨1, 0 + 1⟩ ∧
      (ResponseCache.delKey [("a", (⟨0, 5⟩ : CacheEntry ℕ))] p.1).length + 1 = 1 ∧
      (([("a", (⟨0, 5⟩ : CacheEntry ℕ))].map Prod.fst).Nodup →
        p ∉ ResponseCache.delKey [("a", (⟨0, 5⟩ : CacheEntry ℕ))] p.1 ∧
        ∀ q ∈ [("a", (⟨0, 5⟩ : CacheEntry ℕ))], q ≠ p →
          q ∈ ResponseCache.delKey [("a", (⟨0, 5⟩ : CacheEntry ℕ))] p.1) := by
  have h := responseCache_set_bound_and_evicts_earliest (α := ℕ) 1 1 (by decide)
  exact ⟨h.1 [("a", 0, 0), ("b", 1, 0)], h.2 [("a", ⟨0, 5⟩)] "b" 1 0 (by decide)⟩

theorem responseCache_set_bound_cex :
    ¬((ResponseCache.applySets 0 1 [("k", 0, 0)] :
      List (String × CacheEntry ℕ)).length ≤ 0) := by
  decide

/-! ## Lemmas about the token bucket model -/

theorem RateLimitBucket.refill_tokens_le (b : RateLimitBucket) (now : ℚ) :
    (b.refill now).tokens ≤ (b.capacity : ℚ) := by
  unfold RateLimitBucket.refill
  exact min_le_left _ _

theorem RateLimitBucket.refill_refill (b : RateLimitBucket) (now : ℚ) :
    (b.refill now).refill now = b.refill now := by
  unfold RateLimitBucket.refill
  simp only [sub_self, zero_mul, add_zero]
  rw [min_eq_right (min_le_left _ _)]

theorem RateLimitBucket.consume_explicit (cap : ℤ) (rate tok lr now : ℚ) :
    RateLimitBucket.consume ⟨cap, rate, tok, lr⟩ 1 now =
      (if ((1 : ℤ) : ℚ) ≤ min (cap : ℚ) (tok + (now - lr) * rate) then
        (true, ⟨cap, rate, min (cap : ℚ) (tok + (now - lr) * rate) - ((1 : ℤ) : ℚ), now⟩)
      else (false, ⟨cap, rate, min (cap : ℚ) (tok + (now - lr) * rate), now⟩)) := by
  unfold RateLimitBucket.consume RateLimitBucket.refill
  rfl

theorem consumeIter_eq (C : ℕ) (rate t0 : ℚ) :
    ∀ k ≤ C, consumeIter (mkBucket (C : ℤ) rate t0) t0 k =
      ⟨(C : ℤ), rate, (C : ℚ) - (k : ℚ), t0⟩ := by
  intro k hk
  induction k with
  | zero => simp [consumeIter, mkBucket]
  | succ n ih =>
    have hn : n ≤ C := Nat.le_of_succ_le hk
    have hlt : (n : ℚ) + 1 ≤ (C : ℚ) := by exact_mod_cast hk
    rw [consumeIter, ih hn, RateLimitBucket.consume_explicit]
    have hmin : min (((C : ℤ) : ℚ))
        (((C : ℚ) - (n : ℚ)) + (t0 - t0) * rate) = (C : ℚ) - (n : ℚ) := by
      rw [sub_self, zero_mul, add_zero,
        show (((C : ℤ) : ℚ)) = (C : ℚ) from by push_cast; ring]
      exact min_eq_right (by have : (0 : ℚ) ≤ (n : ℚ) := Nat.cast_nonneg n; linarith)
    have hcond : ((1 : ℤ) : ℚ) ≤ (C : ℚ) - (n : ℚ) := by push_cast; linarith
    have htok : (C : ℚ) - (n : ℚ) - ((1 : ℤ) : ℚ) = (C : ℚ) - ((n + 1 : ℕ) : ℚ) := by
      push_cast
      ring
    rw [hmin, if_pos hcond, htok]

/-- C5 (corrected: stated for capacity `C ≥ 1` and positive refill rate; with
`C = 0` every refill is clamped to the zero capacity, so after the wait no
consume succeeds).  A fresh bucket of capacity `C` serves exactly `C`
immediate `consume(1)` calls, the `(C+1)`-th fails, and after waiting
`1 / refill_rate` seconds exactly one further `consume(1)` succeeds (one
succeeds, an immediately following one fails again). -/
theorem rateLimitBucket_burst_and_single_refill (C : ℕ) (rate t0 : ℚ)
    (hC : 1 ≤ C) (hrate : 0 < rate) :
    (∀ i < C, ((consumeIter (mkBucket (C : ℤ) rate t0) t0 i).consume 1 t0).1 = true) ∧
    ((consumeIter (mkBucket (C : ℤ) rate t0) t0 C).consume 1 t0).1 = false ∧
    ((consumeIter (mkBucket (C : ℤ) rate t0) t0 (C + 1)).consume 1
      (t0 + 1 / rate)).1 = true ∧
    (((consumeIter (mkBucket (C : ℤ) rate t0) t0 (C + 1)).consume 1
      (t0 + 1 / rate)).2.consume 1 (t0 + 1 / rate)).1 = false := by
  have hCC : (((C : ℤ)) : ℚ) = (C : ℚ) := by push_cast; ring
  have hC1 : ((1 : ℤ) : ℚ) ≤ ((C : ℤ) : ℚ) := by exact_mod_cast hC
  have hno : ¬ ((1 : ℤ) : ℚ) ≤ (0 : ℚ) := by norm_num
  have hminC : min (((C : ℤ) : ℚ)) (((C : ℚ) - (C : ℚ)) + (t0 - t0) * rate) = 0 := by
    rw [sub_self, sub_self, zero_mul, add_zero, hCC]
    exact min_eq_right (by positivity)
  have hiterC : consumeIter (mkBucket (C : ℤ) rate t0) t0 C =
      ⟨(C : ℤ), rate, (C : ℚ) - (C : ℚ), t0⟩ := consumeIter_eq C rate t0 C le_rfl
  have hfailC : (consumeIter (mkBucket (C : ℤ) rate t0) t0 C).consume 1 t0 =
      (false, ⟨(C : ℤ), rate, 0, t0⟩) := by
    rw [hiterC, RateLimitBucket.consume_explicit, hminC, if_neg hno]
  have hiter1 : consumeIter (mkBucket (C : ℤ) rate t0) t0 (C + 1) =
      ⟨(C : ℤ), rate, 0, t0⟩ := by
    rw [consumeIter, hfailC]
  have hmul : (t0 + 1 / rate - t0) * rate = 1 := by
    field_simp
    ring
  have hmin1 : min (((C : ℤ) : ℚ)) ((0 : ℚ) + (t0 + 1 / rate - t0) * rate) = 1 := by
    rw [hmul, zero_add]
    exact min_eq_right (by exact_mod_cast hC1)
  have hyes : ((1 : ℤ) : ℚ) ≤ (1 : ℚ) := by norm_num
  have hstep : (RateLimitBucket.consume ⟨(C : ℤ), rate, 0, t0⟩ 1 (t0 + 1 / rate)) =
      (true, ⟨(C : ℤ), rate, 1 - ((1 : ℤ) : ℚ), t0 + 1 / rate⟩) := by
    rw [RateLimitBucket.consume_explicit, hmin1, if_pos hyes]
  refine ⟨?_, ?_, ?_, ?_⟩
  · intro i hi
    rw [consumeIter_eq C rate t0 i (le_of_lt hi), RateLimitBucket.consume_explicit]
    have hmin : min (((C : ℤ) : ℚ))
        (((C : ℚ) - (i : ℚ)) + (t0 - t0) * rate) = (C : ℚ) - (i : ℚ) := by
      rw [sub_self, zero_mul, add_zero, hCC]
      exact min_eq_right (by have : (0 : ℚ) ≤ (i : ℚ) := Nat.cast_nonneg i; linarith)
    have hcond : ((1 : ℤ) : ℚ) ≤ (C : ℚ) - (i : ℚ) := by
      have : (i : ℚ) + 1 ≤ (C : ℚ) := by exact_mod_cast hi
      push_cast
      linarith
    rw [hmin, if_pos hcond]
  · rw [hfailC]
  · rw [hiter1, hstep]
  · rw [hiter1, hstep]
    show (RateLimitBucket.consume ⟨(C : ℤ), rate, 1 - ((1 : ℤ) : ℚ), t0 + 1 / rate⟩ 1
      (t0 + 1 / rate)).1 = false
    rw [RateLimitBucket.consume_explicit]
    have hminz : min (((C : ℤ) : ℚ))
        ((1 - ((1 : ℤ) : ℚ)) + (t0 + 1 / rate - (t0 + 1 / rate)) * rate) = 0 := by
      rw [sub_self, zero_mul, add_zero,
        show (1 : ℚ) - ((1 : ℤ) : ℚ) = 0 from by push_cast; ring]
      rw [hCC]
      exact min_eq_right (by positivity)
    rw [hminz, if_neg hno]

theorem rateLimitBucket_burst_witness :
    ((consumeIter (mkBucket ((2 : ℕ) : ℤ) 1 0) 0 0).consume 1 0).1 = true ∧
    ((consumeIter (mkBucket ((2 : ℕ) : ℤ) 1 0) 0 1).consume 1 0).1 = true ∧
    ((consumeIter (mkBucket ((2 : ℕ) : ℤ) 1 0) 0 2).consume 1 0).1 = false ∧
    ((consumeIter (mkBucket ((2 : ℕ) : ℤ) 1 0) 0 3).consume 1 (0 + 1 / 1)).1 = true ∧
    (((consumeIter (mkBucket ((2 : ℕ) : ℤ) 1 0) 0 3).consume 1
      (0 + 1 / 1)).2.consume 1 (0 + 1 / 1)).1 = false := by
  have h := rateLimitBucket_burst_and_single_refill 2 1 0 (by decide) (by norm_num)
  exact ⟨h.1 0 (by decide), h.1 1 (by decide), h.2.1, h.2.2.1, h.2.2.2⟩

theorem rateLimitBucket_zero_capacity_cex :
    ((mkBucket 0 1 0).consume 1 0).1 = false ∧
    (((mkBucket 0 1 0).consume 1 0).2.consume 1 1).1 = false := by
  constructor
  · norm_num [mkBucket, RateLimitBucket.consume, RateLimitBucket.refill]
  · norm_num [mkBucket, RateLimitBucket.consume, RateLimitBucket.refill]

theorem RateLimiter.lookup_updateBucket (l : List (String × RateLimitBucket))
    (id : String) (b : RateLimitBucket) :
    RateLimiter.lookupBucket (RateLimiter.updateBucket l id b) id = some b := by
  induction l with
  | nil => simp [RateLimiter.updateBucket, RateLimiter.lookupBucket]
  | cons p ps ih =>
    by_cases hp : p.1 = id
    · simp [RateLimiter.updateBucket, hp, RateLimiter.lookupBucket]
    · simp only [RateLimiter.updateBucket, if_neg hp]
      rw [RateLimiter.lookupBucket, List.find?_cons_of_neg _ (by simp [hp])]
      exact ih

/-- C6 (confirmed, for a positive refill rate).  When `check_rate_limit`
denies a request, the stored bucket ends with exactly the lazily-refilled
token balance (nothing is deducted by the denied call), and the returned
`retry_after` equals `(1 - tokens) / refill_rate` computed on that balance,
a strictly positive number. -/
theorem rateLimiter_denial_consumes_no_quota (s : RateLimiter) (id : String) (now : ℚ)
    (hrate : 0 < (RateLimiter.bucketFor s id now).refill_rate)
    (hden : (RateLimiter.check_rate_limit s id now).1 = false) :
    RateLimiter.lookupBucket (RateLimiter.check_rate_limit s id now).2.2.buckets id =
      some (((RateLimiter.bucketFor s id now).refill now).refill now) ∧
    (((RateLimiter.bucketFor s id now).refill now).refill now).tokens =
      ((RateLimiter.bucketFor s id now).refill now).tokens ∧
    (RateLimiter.check_rate_limit s id now).2.1 =
      some (((1 : ℚ) - ((RateLimiter.bucketFor s id now).refill now).tokens) /
        (RateLimiter.bucketFor s id now).refill_rate) ∧
    0 < ((1 : ℚ) - ((RateLimiter.bucketFor s id now).refill now).tokens) /
      (RateLimiter.bucketFor s id now).refill_rate := by
  have hfold : (RateLimiter.lookupBucket
      (RateLimiter.cleanup_old_buckets s now).buckets id).getD
      (mkBucket s.burst s.refill_rate now) = RateLimiter.bucketFor s id now := rfl
  -- the denied `consume` left the refilled bucket untouched
  have hr : ((RateLimiter.bucketFor s id now).consume 1 now).1 = false := by
    by_contra hcon
    have htrue : ((RateLimiter.bucketFor s id now).consume 1 now).1 = true := by
      cases h : ((RateLimiter.bucketFor s id now).consume 1 now).1 with
      | true => rfl
      | false => exact absurd h hcon
    have hchk : (RateLimiter.check_rate_limit s id now).1 = true := by
      simp only [RateLimiter.check_rate_limit, hfold, htrue, if_true]
    rw [hchk] at hden
    cases hden
  have hcond : ¬ (((1 : ℤ) : ℚ) ≤
      ((RateLimiter.bucketFor s id now).refill now).tokens) := by
    intro hc
    unfold RateLimitBucket.consume at hr
    rw [if_pos hc] at hr
    cases hr
  have hr2 : ((RateLimiter.bucketFor s id now).consume 1 now).2 =
      (RateLimiter.bucketFor s id now).refill now := by
    unfold RateLimitBucket.consume
    rw [if_neg hcond]
  have hrr : ((RateLimiter.bucketFor s id now).refill now).refill now =
      (RateLimiter.bucketFor s id now).refill now :=
    RateLimitBucket.refill_refill _ _
  have ht : (((RateLimiter.bucketFor s id now).refill now).time_until_available 1 now) =
      ((((1 : ℤ) : ℚ) - ((RateLimiter.bucketFor s id now).refill now).tokens) /
        ((RateLimiter.bucketFor s id now).refill now).refill_rate,
        ((RateLimiter.bucketFor s id now).refill now).refill now) := by
    unfold RateLimitBucket.time_until_available
    rw [hrr, if_neg hcond]
  have hrateq : ((RateLimiter.bucketFor s id now).refill now).refill_rate =
      (RateLimiter.bucketFor s id now).refill_rate := rfl
  have hcast : (((1 : ℤ) : ℚ)) = (1 : ℚ) := by norm_num
  have hcheck : RateLimiter.check_rate_limit s id now =
      (false,
        some (((1 : ℚ) - ((RateLimiter.bucketFor s id now).refill now).tokens) /
          (RateLimiter.bucketFor s id now).refill_rate),
        { RateLimiter.cleanup_old_buckets s now with
          buckets := RateLimiter.updateBucket
            (if (RateLimiter.lookupBucket
                (RateLimiter.cleanup_old_buckets s now).buckets id).isSome then
              (RateLimiter.cleanup_old_buckets s now).buckets
            else (RateLimiter.cleanup_old_buckets s now).buckets ++
              [(id, mkBucket s.burst s.refill_rate now)]) id
            (((RateLimiter.bucketFor s id now).refill now).refill now) }) := by
    simp only [RateLimiter.check_rate_limit, hfold, hr, Bool.false_eq_true, if_false,
      hr2, ht, hrateq, hcast]
  refine ⟨?_, ?_, ?_, ?_⟩
  · rw [hcheck]
    exact RateLimiter.lookup_updateBucket _ id _
  · rw [hrr]
  · rw [hcheck]
  · have htok : ((RateLimiter.bucketFor s id now).refill now).tokens < 1 := by
      have := not_le.1 hcond
      rw [hcast] at this
      exact this
    exact div_pos (by linarith) hrate

theorem rateLimiter_denial_witness :
    RateLimiter.lookupBucket
      (RateLimiter.check_rate_limit ⟨0, 1, [], 0, 300⟩ "u" 0).2.2.buckets "u" =
      some (((RateLimiter.bucketFor ⟨0, 1, [], 0, 300⟩ "u" 0).refill 0).refill 0) ∧
    (((RateLimiter.bucketFor ⟨0, 1, [], 0, 300⟩ "u" 0).refill 0).refill 0).tokens =
      ((RateLimiter.bucketFor ⟨0, 1, [], 0, 300⟩ "u" 0).refill 0).tokens ∧
    (RateLimiter.check_rate_limit ⟨0, 1, [], 0, 300⟩ "u" 0).2.1 =
      some (((1 : ℚ) - ((RateLimiter.bucketFor ⟨0, 1, [], 0, 300⟩ "u" 0).refill 0).tokens) /
        (RateLimiter.bucketFor ⟨0, 1, [], 0, 300⟩ "u" 0).refill_rate) ∧
    0 < ((1 : ℚ) - ((RateLimiter.bucketFor ⟨0, 1, [], 0, 300⟩ "u" 0).refill 0).tokens) /
      (RateLimiter.bucketFor ⟨0, 1, [], 0, 300⟩ "u" 0).refill_rate := by
  refine rateLimiter_denial_consumes_no_quota ⟨0, 1, [], 0, 300⟩ "u" 0 ?_ ?_
  · norm_num [RateLimiter.bucketFor, RateLimiter.cleanup_old_buckets,
      RateLimiter.lookupBucket, mkBucket]
  · norm_num [RateLimiter.check_rate_limit, RateLimiter.cleanup_old_buckets,
      RateLimiter.lookupBucket, mkBucket, RateLimitBucket.consume, RateLimitBucket.refill]

/-- C10 (confirmed).  The periodic sweep removes a bucket only when its stored
token count has reached its capacity and its `last_refill` lies more than two
cleanup intervals in the past; and since sweeps never recompute tokens (refill
is lazy, done only on access), a bucket whose stored count is strictly below
capacity survives every sweep, no matter how many sweeps run or how late. -/
theorem rateLimiter_cleanup_spares_nonfull_buckets (s : RateLimiter) (now : ℚ) :
    (∀ p ∈ s.buckets, p ∉ (RateLimiter.cleanup_old_buckets s now).buckets →
      (p.2.capacity : ℚ) ≤ p.2.tokens ∧
      p.2.last_refill < now - s.cleanup_interval * 2) ∧
    (∀ (times : List ℚ) (p : String × RateLimitBucket), p ∈ s.buckets →
      p.2.tokens < (p.2.capacity : ℚ) →
      p ∈ (times.foldl RateLimiter.cleanup_old_buckets s).buckets) := by
  constructor
  · intro p hp hout
    unfold RateLimiter.cleanup_old_buckets at hout
    by_cases hdue : now - s.last_cleanup < s.cleanup_interval
    · rw [if_pos hdue] at hout
      exact absurd hp hout
    · rw [if_neg hdue] at hout
      by_contra hnot
      refine hout ?_
      simp only [List.mem_filter]
      refine ⟨hp, ?_⟩
      simp only [Bool.not_eq_true', decide_eq_false_iff_not]
      exact hnot
  · intro times
    induction times generalizing s with
    | nil => intro p hp _; simpa using hp
    | cons t ts ih =>
      intro p hp hlt
      refine ih (RateLimiter.cleanup_old_buckets s t) p ?_ hlt
      unfold RateLimiter.cleanup_old_buckets
      by_cases hdue : t - s.last_cleanup < s.cleanup_interval
      · rw [if_pos hdue]
        exact hp
      · rw [if_neg hdue]
        simp only [List.mem_filter]
        refine ⟨hp, ?_⟩
        simp only [Bool.not_eq_true', decide_eq_false_iff_not]
        intro hcontra
        exact absurd hcontra.1 (not_le.2 hlt)

theorem rateLimiter_cleanup_witness :
    ("u", (⟨2, 1, 1, 0⟩ : RateLimitBucket)) ∈
      (([100, 200] : List ℚ).foldl RateLimiter.cleanup_old_buckets
        ⟨2, 1, [("u", ⟨2, 1, 1, 0⟩)], 0, 10⟩).buckets := by
  exact (rateLimiter_cleanup_spares_nonfull_buckets ⟨2, 1, [("u", ⟨2, 1, 1, 0⟩)], 0, 10⟩
    0).2 [100, 200] ("u", ⟨2, 1, 1, 0⟩) (by decide) (by decide)

/-! ## call_tool validation (C1) and estimate_tokens (C9) -/

/-- C1 (confirmed).  Calling an unregistered tool fails with an
`InvalidParamsError` (code -32602) whose hint is exactly `"Available tools: "`
followed by the comma-separated list of every currently-registered tool name;
calling a registered tool that has a handler while one or more required
parameters are absent fails with one error naming, in the message, exactly
the required parameters absent from the arguments — all of them, not only the
first. -/
theorem mcpServer_call_tool_validation (s : MCPServer) (name : String)
    (argKeys : List String) :
    (s.tools.find? (fun t => t.name = name) = none →
      MCPServer.call_tool s name argKeys = Except.error (invalidParamsError
        ("Tool \x27" ++ name ++ "\x27 not found")
        ("Available tools: " ++ String.intercalate ", " (s.tools.map Tool.name))) ∧
      (invalidParamsError ("Tool \x27" ++ name ++ "\x27 not found")
        ("Available tools: " ++ String.intercalate ", " (s.tools.map Tool.name))).code =
        INVALID_PARAMS) ∧
    (∀ tool, s.tools.find? (fun t => t.name = name) = some tool →
      tool.hasHandler = true →
      ((tool.parameters.filter (fun p => p.required)).map ToolParameter.name).filter
        (fun p => !(argKeys.contains p)) ≠ [] →
      MCPServer.call_tool s name argKeys = Except.error (invalidParamsError
        ("Missing required parameters: " ++ String.intercalate ", "
          (((tool.parameters.filter (fun p => p.required)).map ToolParameter.name).filter
            (fun p => !(argKeys.contains p))))
        ("Tool \x27" ++ name ++ "\x27 requires: " ++ String.intercalate ", "
          ((tool.parameters.filter (fun p => p.required)).map ToolParameter.name))) ∧
      ∀ q, (q ∈ ((tool.parameters.filter (fun p => p.required)).map
          ToolParameter.name).filter (fun p => !(argKeys.contains p))) ↔
        (q ∈ (tool.parameters.filter (fun p => p.required)).map ToolParameter.name ∧
          ¬ (q ∈ argKeys))) := by
  constructor
  · intro h
    refine ⟨?_, rfl⟩
    simp only [MCPServer.call_tool, h]
  · intro tool hfind hh hne
    constructor
    · have hempty : (((tool.parameters.filter (fun p => p.required)).map
          ToolParameter.name).filter (fun p => !(argKeys.contains p))).isEmpty = false := by
        cases hl : ((tool.parameters.filter (fun p => p.required)).map
            ToolParameter.name).filter (fun p => !(argKeys.contains p)) with
        | nil => exact absurd hl hne
        | cons a l => rfl
      simp only [MCPServer.call_tool, hfind, hh, Bool.true_eq_false, if_neg, hempty,
        Bool.false_eq_true, if_false]
    · intro q
      simp [List.mem_filter]

theorem mcpServer_call_tool_witness :
    (MCPServer.call_tool ⟨[]⟩ "x" [] = Except.error (invalidParamsError
      ("Tool \x27" ++ "x" ++ "\x27 not found")
      ("Available tools: " ++ String.intercalate ", " (([] : List Tool).map Tool.name))) ∧
      (invalidParamsError ("Tool \x27" ++ "x" ++ "\x27 not found")
        ("Available tools: " ++ String.intercalate ", "
          (([] : List Tool).map Tool.name))).code = INVALID_PARAMS) ∧
    (MCPServer.call_tool ⟨[⟨"t", [⟨"a", true⟩, ⟨"b", false⟩, ⟨"c", true⟩], true⟩]⟩
        "t" ["b"] = Except.error (invalidParamsError
      ("Missing required parameters: " ++ String.intercalate ", "
        ((((⟨"t", [⟨"a", true⟩, ⟨"b", false⟩, ⟨"c", true⟩], true⟩ :
            Tool).parameters.filter (fun p => p.required)).map ToolParameter.name).filter
          (fun p => !((["b"] : List String).contains p))))
      ("Tool \x27" ++ "t" ++ "\x27 requires: " ++ String.intercalate ", "
        (((⟨"t", [⟨"a", true⟩, ⟨"b", false⟩, ⟨"c", true⟩], true⟩ :
          Tool).parameters.filter (fun p => p.required)).map ToolParameter.name))) ∧
      ∀ q, (q ∈ ((((⟨"t", [⟨"a", true⟩, ⟨"b", false⟩, ⟨"c", true⟩], true⟩ :
          Tool).parameters.filter (fun p => p.required)).map ToolParameter.name).filter
            (fun p => !((["b"] : List String).contains p)))) ↔
        (q ∈ (((⟨"t", [⟨"a", true⟩, ⟨"b", false⟩, ⟨"c", true⟩], true⟩ :
          Tool).parameters.filter (fun p => p.required)).map ToolParameter.name) ∧
          ¬ (q ∈ (["b"] : List String)))) := by
  have h0 := mcpServer_call_tool_validation ⟨[]⟩ "x" []
  have h := mcpServer_call_tool_validation
    ⟨[⟨"t", [⟨"a", true⟩, ⟨"b", false⟩, ⟨"c", true⟩], true⟩]⟩ "t" ["b"]
  exact ⟨h0.1 (by decide),
    h.2 ⟨"t", [⟨"a", true⟩, ⟨"b", false⟩, ⟨"c", true⟩], true⟩ (by decide) rfl (by decide)⟩

theorem estimate_tokens_eq_floor (s : String) :
    estimate_tokens s = ((3 * word_count s) / 4 : ℕ) := by
  unfold estimate_tokens
  have hdiv := Nat.div_add_mod (3 * word_count s) 4
  have hmod : (3 * word_count s) % 4 < 4 := Nat.mod_lt _ (by norm_num)
  have hcast : ((3 * word_count s : ℕ) : ℚ) =
      4 * (((3 * word_count s) / 4 : ℕ) : ℚ) + (((3 * word_count s) % 4 : ℕ) : ℚ) := by
    exact_mod_cast hdiv.symm
  rw [show ((word_count s : ℚ) * (3 / 4)) = ((3 * word_count s : ℕ) : ℚ) / 4 from by
    push_cast; ring]
  rw [Int.floor_eq_iff]
  constructor
  · rw [Int.cast_natCast, hcast, le_div_iff₀ (by norm_num : (0 : ℚ) < 4)]
    have : (0 : ℚ) ≤ (((3 * word_count s) % 4 : ℕ) : ℚ) := Nat.cast_nonneg _
    linarith
  · rw [Int.cast_natCast, hcast, div_lt_iff₀ (by norm_num : (0 : ℚ) < 4)]
    have : (((3 * word_count s) % 4 : ℕ) : ℚ) < 4 := by exact_mod_cast hmod
    linarith

/-- C9 (corrected).  In the no-tokenizer fallback, `estimate_tokens` is
`int(word_count * 0.75)` — truncation, i.e. the floor `(3 * word_count) / 4`
— not Python's `round(word_count * 0.75)`; the two differ already at a
one-word text (0 versus 1). -/
theorem estimate_tokens_fallback_is_truncation (s : String) :
    estimate_tokens s = ((3 * word_count s) / 4 : ℕ) :=
  estimate_tokens_eq_floor s

theorem estimate_tokens_round_cex :
    estimate_tokens "a" = 0 ∧ pythonRound ((word_count "a" : ℚ) * (3 / 4)) = 1 := by
  constructor
  · rw [estimate_tokens_eq_floor]
    norm_num [show word_count "a" = 1 from by decide]
  · have hw : word_count "a" = 1 := by decide
    have hval : ((word_count "a" : ℚ)) * (3 / 4) = 3 / 4 := by rw [hw]; norm_num
    have hf : Int.floor ((3 : ℚ) / 4) = 0 := by
      rw [Int.floor_eq_iff]
      norm_num
    unfold pythonRound
    rw [hval, hf]
    norm_num

/-! ## Lemmas about the redaction model (C7) -/

theorem length_dropWhile_le' (p : Char → Bool) (l : List Char) :
    (l.dropWhile p).length ≤ l.length := by
  induction l with
  | nil => simp [List.dropWhile]
  | cons a l ih =>
    rw [List.dropWhile_cons]
    by_cases h : p a = true
    · rw [if_pos h]
      exact le_trans ih (Nat.le_succ _)
    · rw [if_neg h]

theorem maskGo_fuel : ∀ f g : ℕ, ∀ l : List Char, l.length ≤ f → l.length ≤ g →
    maskGo f l = maskGo g l := by
  intro f
  induction f with
  | zero =>
    intro g l hf hg
    have hnil : l = [] := List.length_eq_zero.1 (Nat.le_zero.1 hf)
    subst hnil
    cases g <;> rfl
  | succ n ih =>
    intro g l hf hg
    cases l with
    | nil => cases g <;> rfl
    | cons c cs =>
      cases g with
      | zero => simp at hg
      | succ m =>
        have hcsn : cs.length ≤ n := by
          simp only [List.length_cons] at hf
          omega
        have hcsm : cs.length ≤ m := by
          simp only [List.length_cons] at hg
          omega
        simp only [maskGo]
        by_cases hc : c = '*'
        · rw [if_pos hc, if_pos hc]
          have hrest : ((c :: cs).dropWhile (fun x => x = '*')).length ≤ cs.length := by
            rw [List.dropWhile_cons, if_pos (by simp [hc])]
            exact length_dropWhile_le' _ _
          by_cases hlong : 4 ≤ ((c :: cs).takeWhile (fun x => x = '*')).length
          · rw [if_pos hlong, if_pos hlong,
              ih m _ (le_trans hrest hcsn) (le_trans hrest hcsm)]
          · rw [if_neg hlong, if_neg hlong,
              ih m _ (le_trans hrest hcsn) (le_trans hrest hcsm)]
        · rw [if_neg hc, if_neg hc, ih m cs hcsn hcsm]

theorem maskGo_eq (f : ℕ) (l : List Char) (h : l.length ≤ f) :
    maskGo f l = maskSecrets l :=
  maskGo_fuel f l.length l h le_rfl

theorem maskSecrets_nil : maskSecrets [] = [] := rfl

theorem maskSecrets_cons_nonstar {c : Char} (cs : List Char) (hc : ¬ c = '*') :
    maskSecrets (c :: cs) = c :: maskSecrets cs := by
  unfold maskSecrets
  simp only [List.length_cons, maskGo]
  rw [if_neg hc]

theorem maskSecrets_head_star {l : List Char} (h : l.head? = some '*') :
    maskSecrets l = if 4 ≤ (l.takeWhile (fun x => x = '*')).length then
      redactedText ++ maskSecrets (l.dropWhile (fun x => x = '*'))
    else (l.takeWhile (fun x => x = '*')) ++ maskSecrets (l.dropWhile (fun x => x = '*')) := by
  cases l with
  | nil => cases h
  | cons c cs =>
    have hc : c = '*' := by simpa using h
    subst hc
    unfold maskSecrets
    simp only [List.length_cons, maskGo, if_true]
    have hrest : (('*' :: cs).dropWhile (fun x => x = '*')).length ≤ cs.length := by
      rw [List.dropWhile_cons, if_pos (by simp)]
      exact length_dropWhile_le' _ _
    rw [maskGo_eq cs.length _ hrest, maskGo_eq _ _ le_rfl]

theorem maskSecrets_append_nostar {s : List Char} (hs : ∀ c ∈ s, ¬ c = '*')
    (m : List Char) : maskSecrets (s ++ m) = s ++ maskSecrets m := by
  induction s with
  | nil => rfl
  | cons a s ih =>
    have ha : ¬ a = '*' := hs a (List.mem_cons_self _ _)
    rw [List.cons_append, maskSecrets_cons_nonstar _ ha,
      ih (fun c hc => hs c (List.mem_cons_of_mem _ hc)), List.cons_append]

theorem head_dropWhile_not (p : Char → Bool) (l : List Char) :
    ∀ x, (l.dropWhile p).head? = some x → p x = false := by
  induction l with
  | nil => intro x hx; cases hx
  | cons a l ih =>
    intro x hx
    rw [List.dropWhile_cons] at hx
    by_cases h : p a = true
    · rw [if_pos h] at hx
      exact ih x hx
    · rw [if_neg h] at hx
      injection hx with hx
      rw [← hx]
      cases hpa : p a with
      | false => rfl
      | true => exact absurd hpa h

theorem maskSecrets_head_nonstar {l : List Char}
    (h : ∀ x, l.head? = some x → ¬ x = '*') :
    ∀ x, (maskSecrets l).head? = some x → ¬ x = '*' := by
  cases l with
  | nil =>
    intro x hx
    rw [maskSecrets_nil] at hx
    cases hx
  | cons c cs =>
    have hc : ¬ c = '*' := h c rfl
    intro x hx
    rw [maskSecrets_cons_nonstar _ hc] at hx
    injection hx with hx
    exact hx ▸ hc

theorem takeWhile_append_all (p : Char → Bool) {s : List Char}
    (hs : ∀ c ∈ s, p c = true) {m : List Char}
    (hm : ∀ x, m.head? = some x → p x = false) :
    (s ++ m).takeWhile p = s ∧ (s ++ m).dropWhile p = m := by
  induction s with
  | nil =>
    simp only [List.nil_append]
    cases m with
    | nil => exact ⟨rfl, rfl⟩
    | cons a l =>
      have ha : p a = false := hm a rfl
      rw [List.takeWhile_cons, List.dropWhile_cons]
      constructor <;> simp [ha]
  | cons a s ih =>
    have ha : p a = true := hs a (List.mem_cons_self _ _)
    have ihs := ih (fun c hc => hs c (List.mem_cons_of_mem _ hc))
    rw [List.cons_append, List.takeWhile_cons, List.dropWhile_cons, if_pos ha, if_pos ha]
    exact ⟨by rw [ihs.1], ihs.2⟩

theorem sat_of_mem_takeWhile (p : Char → Bool) (l : List Char) :
    ∀ c ∈ l.takeWhile p, p c = true := by
  induction l with
  | nil => intro c hc; simpa using hc
  | cons a s ih =>
    intro c hc
    rw [List.takeWhile_cons] at hc
    by_cases h : p a = true
    · rw [if_pos h] at hc
      rcases List.mem_cons.1 hc with rfl | hc2
      · exact h
      · exact ih c hc2
    · rw [if_neg h] at hc
      cases hc

theorem mem_takeWhile_mem (p : Char → Bool) (l : List Char) :
    ∀ c ∈ l.takeWhile p, c ∈ l := by
  induction l with
  | nil => intro c hc; simpa using hc
  | cons a s ih =>
    intro c hc
    rw [List.takeWhile_cons] at hc
    by_cases h : p a = true
    · rw [if_pos h] at hc
      rcases List.mem_cons.1 hc with rfl | hc2
      · exact List.mem_cons_self _ _
      · exact List.mem_cons_of_mem _ (ih c hc2)
    · rw [if_neg h] at hc
      cases hc

theorem mem_dropWhile_mem (p : Char → Bool) (l : List Char) :
    ∀ c ∈ l.dropWhile p, c ∈ l := by
  induction l with
  | nil => intro c hc; simpa using hc
  | cons a s ih =>
    intro c hc
    rw [List.dropWhile_cons] at hc
    by_cases h : p a = true
    · rw [if_pos h] at hc
      exact List.mem_cons_of_mem _ (ih c hc)
    · rw [if_neg h] at hc
      exact hc

theorem mem_maskSecrets :
    ∀ (l : List Char), ∀ c ∈ maskSecrets l, c ∈ l ∨ c ∈ redactedText := by
  suffices h : ∀ n, ∀ l : List Char, l.length ≤ n →
      ∀ c ∈ maskSecrets l, c ∈ l ∨ c ∈ redactedText by
    intro l
    exact h l.length l le_rfl
  intro n
  induction n with
  | zero =>
    intro l hl c hc
    have hnil : l = [] := List.length_eq_zero.1 (Nat.le_zero.1 hl)
    subst hnil
    rw [maskSecrets_nil] at hc
    cases hc
  | succ n ih =>
    intro l hl c hc
    cases l with
    | nil =>
      rw [maskSecrets_nil] at hc
      cases hc
    | cons a cs =>
      have hcs : cs.length ≤ n := by
        simp only [List.length_cons] at hl
        omega
      by_cases ha : a = '*'
      · subst ha
        have hrestlen : (('*' :: cs).dropWhile (fun x => x = '*')).length ≤ n := by
          refine le_trans ?_ hcs
          rw [List.dropWhile_cons, if_pos (by simp)]
          exact length_dropWhile_le' _ _
        rw [maskSecrets_head_star (show ('*' :: cs).head? = some '*' from rfl)] at hc
        by_cases hlong : 4 ≤ (('*' :: cs).takeWhile (fun x => x = '*')).length
        · rw [if_pos hlong] at hc
          rcases List.mem_append.1 hc with hred | hrec
          · exact Or.inr hred
          · rcases ih _ hrestlen c hrec with hmem | hred
            · exact Or.inl (mem_dropWhile_mem _ _ c hmem)
            · exact Or.inr hred
        · rw [if_neg hlong] at hc
          rcases List.mem_append.1 hc with hrun | hrec
          · exact Or.inl (mem_takeWhile_mem _ _ c hrun)
          · rcases ih _ hrestlen c hrec with hmem | hred
            · exact Or.inl (mem_dropWhile_mem _ _ c hmem)
            · exact Or.inr hred
      · rw [maskSecrets_cons_nonstar _ ha] at hc
        rcases List.mem_cons.1 hc with rfl | hc2
        · exact Or.inl (List.mem_cons_self _ _)
        · rcases ih cs hcs c hc2 with hmem | hred
          · exact Or.inl (List.mem_cons_of_mem _ hmem)
          · exact Or.inr hred

theorem maskSecrets_idem : ∀ l : List Char,
    maskSecrets (maskSecrets l) = maskSecrets l := by
  suffices h : ∀ n, ∀ l : List Char, l.length ≤ n →
      maskSecrets (maskSecrets l) = maskSecrets l by
    intro l
    exact h l.length l le_rfl
  intro n
  induction n with
  | zero =>
    intro l hl
    have hnil : l = [] := List.length_eq_zero.1 (Nat.le_zero.1 hl)
    subst hnil
    rfl
  | succ n ih =>
    intro l hl
    cases l with
    | nil => rfl
    | cons a cs =>
      have hcs : cs.length ≤ n := by
        simp only [List.length_cons] at hl
        omega
      by_cases ha : a = '*'
      · subst ha
        have hrestlen : (('*' :: cs).dropWhile (fun x => x = '*')).length ≤ n := by
          refine le_trans ?_ hcs
          rw [List.dropWhile_cons, if_pos (by simp)]
          exact length_dropWhile_le' _ _
        have hm := ih _ hrestlen
        have hrunhead : (('*' :: cs).takeWhile (fun x => x = '*')) =
            '*' :: (cs.takeWhile (fun x => x = '*')) := by
          rw [List.takeWhile_cons, if_pos (by decide)]
        rw [maskSecrets_head_star (show ('*' :: cs).head? = some '*' from rfl)]
        by_cases hlong : 4 ≤ (('*' :: cs).takeWhile (fun x => x = '*')).length
        · rw [if_pos hlong,
            maskSecrets_append_nostar (by decide) _, hm]
        · rw [if_neg hlong]
          have hmhead : ∀ x,
              (maskSecrets (('*' :: cs).dropWhile (fun x => x = '*'))).head? = some x →
              decide (x = '*') = false := by
            intro x hx
            have hnot := maskSecrets_head_nonstar (fun y hy => by
              have := head_dropWhile_not (fun x => x = '*') ('*' :: cs) y hy
              simpa using this) x hx
            simpa using hnot
          have htd := takeWhile_append_all (fun x => x = '*')
            (sat_of_mem_takeWhile (fun x => x = '*') ('*' :: cs)) hmhead
          rw [maskSecrets_head_star
            (show ((('*' :: cs).takeWhile (fun x => x = '*')) ++
              maskSecrets (('*' :: cs).dropWhile (fun x => x = '*'))).head? = some '*' from by
                rw [hrunhead]; rfl)]
          rw [htd.1, htd.2, if_neg hlong, hm]
      · rw [maskSecrets_cons_nonstar _ ha, maskSecrets_cons_nonstar _ ha, ih cs hcs]

theorem stripGo_fuel : ∀ f g : ℕ, ∀ l : List Char, l.length ≤ f → l.length ≤ g →
    stripGo f l = stripGo g l := by
  intro f
  induction f with
  | zero =>
    intro g l hf hg
    have hnil : l = [] := List.length_eq_zero.1 (Nat.le_zero.1 hf)
    subst hnil
    cases g <;> rfl
  | succ n ih =>
    intro g l hf hg
    cases l with
    | nil => cases g <;> rfl
    | cons c cs =>
      cases g with
      | zero => simp at hg
      | succ m =>
        have hcsn : cs.length ≤ n := by
          simp only [List.length_cons] at hf
          omega
        have hcsm : cs.length ≤ m := by
          simp only [List.length_cons] at hg
          omega
        simp only [stripGo]
        cases hmt : ansiMatchLen (c :: cs) with
        | none =>
          show c :: stripGo n cs = c :: stripGo m cs
          rw [ih m cs hcsn hcsm]
        | some k =>
          have hdrop : (cs.drop (k - 1)).length ≤ cs.length := by
            rw [List.length_drop]
            omega
          show stripGo n (cs.drop (k - 1)) = stripGo m (cs.drop (k - 1))
          exact ih m _ (le_trans hdrop hcsn) (le_trans hdrop hcsm)

theorem stripAnsi_nil : stripAnsi [] = [] := rfl

theorem stripAnsi_cons_match {c : Char} {cs : List Char} {k : ℕ}
    (h : ansiMatchLen (c :: cs) = some k) :
    stripAnsi (c :: cs) = stripAnsi (cs.drop (k - 1)) := by
  unfold stripAnsi
  simp only [List.length_cons, stripGo, h]
  exact stripGo_fuel cs.length _ _ (by rw [List.length_drop]; omega) le_rfl

theorem stripAnsi_cons_nomatch {c : Char} {cs : List Char}
    (h : ansiMatchLen (c :: cs) = none) :
    stripAnsi (c :: cs) = c :: stripAnsi cs := by
  unfold stripAnsi
  simp only [List.length_cons, stripGo, h]

theorem ansiMatchLen_head {l : List Char} {k : ℕ} (h : ansiMatchLen l = some k) :
    l.head? = some '\x1b' := by
  cases l with
  | nil => cases h
  | cons e rest =>
    by_cases he : e = '\x1b'
    · subst he
      rfl
    · simp only [ansiMatchLen, if_neg he] at h
      cases h

theorem stripAnsi_of_no_esc {l : List Char} (h : '\x1b' ∉ l) : stripAnsi l = l := by
  induction l with
  | nil => rfl
  | cons c cs ih =>
    have hc : ¬ c = '\x1b' := by
      intro he
      exact h (by rw [he]; exact List.mem_cons_self _ _)
    have hm : ansiMatchLen (c :: cs) = none := by
      cases hmt : ansiMatchLen (c :: cs) with
      | none => rfl
      | some k =>
        have hh := ansiMatchLen_head hmt
        injection hh with hh
        exact absurd hh hc
    rw [stripAnsi_cons_nomatch hm, ih (fun hmem => h (List.mem_cons_of_mem _ hmem))]

theorem esc_not_mem_maskSecrets {l : List Char} (h : '\x1b' ∉ l) :
    '\x1b' ∉ maskSecrets l := by
  intro hmem
  rcases mem_maskSecrets l '\x1b' hmem with hl | hred
  · exact h hl
  · exact absurd hred (by decide)

/-- C7 (corrected).  The per-line redaction step of `filter_log` (ANSI-escape
stripping followed by masking runs of 4 or more asterisks) is idempotent on
every line whose ANSI-stripped form contains no remaining ESC (`0x1B`)
character.  That proviso is necessary: a single strip pass deletes matches
left-to-right and can thereby splice the surrounding fragments into a brand
new escape sequence, on which the transform is not idempotent (see the
counterexample). -/
theorem redactLine_idempotent_of_no_esc (l : List Char)
    (h : '\x1b' ∉ stripAnsi l) :
    redactLine (redactLine l) = redactLine l := by
  unfold redactLine
  rw [stripAnsi_of_no_esc (esc_not_mem_maskSecrets h), maskSecrets_idem]

theorem redactLine_idempotent_witness :
    '\x1b' ∉ stripAnsi ("password=*****\x1b[31mFAIL**".data) ∧
    redactLine (redactLine ("password=*****\x1b[31mFAIL**".data)) =
      redactLine ("password=*****\x1b[31mFAIL**".data) :=
  ⟨by decide, redactLine_idempotent_of_no_esc ("password=*****\x1b[31mFAIL**".data)
    (by decide)⟩

theorem redactLine_not_idempotent_cex :
    redactLine (redactLine ("\x1b[\x1b[31m31m".data)) ≠
      redactLine ("\x1b[\x1b[31m31m".data) := by
  decide

/-! ## Lemmas about the UTF-8 truncation model (C2) -/

theorem utf8EncodeChar_len (v : ℕ) :
    1 ≤ (utf8EncodeChar v).length ∧ (utf8EncodeChar v).length ≤ 4 := by
  unfold utf8EncodeChar
  split_ifs <;> simp

theorem utf8DecodeGo_nil (f : ℕ) : utf8DecodeGo f [] = [] := by
  cases f <;> rfl

theorem isCont_true {b : ℕ} (h1 : 0x80 ≤ b) (h2 : b ≤ 0xBF) : isCont b = true := by
  simp only [isCont, decide_eq_true_eq]
  omega

theorem utf8DecodeGo_encodeChar (v : ℕ) (hv : ValidCp v) (f : ℕ) (rest : List ℕ) :
    utf8DecodeGo (f + 1) (utf8EncodeChar v ++ rest) = v :: utf8DecodeGo f rest := by
  obtain ⟨hlt, hsur⟩ := hv
  by_cases h1 : v < 0x80
  · rw [utf8EncodeChar, if_pos h1]
    simp only [List.cons_append, List.nil_append, utf8DecodeGo]
    rw [if_pos h1]
  · by_cases h2 : v < 0x800
    · rw [utf8EncodeChar, if_neg h1, if_pos h2]
      simp only [List.cons_append, List.nil_append, utf8DecodeGo]
      rw [if_neg (by omega), if_neg (by omega), if_pos (by omega),
        if_pos (isCont_true (by omega) (by omega)),
        show (0xC0 + v / 64 - 0xC0) * 64 + (0x80 + v % 64 - 0x80) = v from by omega]
    · by_cases h3 : v < 0x10000
      · rw [utf8EncodeChar, if_neg h1, if_neg h2, if_pos h3]
        simp only [List.cons_append, List.nil_append, utf8DecodeGo]
        have hc23 : cont2ok3 (0xE0 + v / 4096) (0x80 + v / 64 % 64) = true := by
          unfold cont2ok3
          by_cases he0 : (0xE0 + v / 4096 : ℕ) = 0xE0
          · rw [if_pos he0]
            simp only [decide_eq_true_eq]
            omega
          · rw [if_neg he0]
            by_cases hed : (0xE0 + v / 4096 : ℕ) = 0xED
            · rw [if_pos hed]
              simp only [decide_eq_true_eq]
              omega
            · rw [if_neg hed]
              exact isCont_true (by omega) (by omega)
        rw [if_neg (by omega), if_neg (by omega), if_neg (by omega), if_pos (by omega),
          if_pos hc23, if_pos (isCont_true (by omega) (by omega)),
          show (0xE0 + v / 4096 - 0xE0) * 4096 + (0x80 + v / 64 % 64 - 0x80) * 64 +
            (0x80 + v % 64 - 0x80) = v from by omega]
      · rw [utf8EncodeChar, if_neg h1, if_neg h2, if_neg h3]
        simp only [List.cons_append, List.nil_append, utf8DecodeGo]
        have hc24 : cont2ok4 (0xF0 + v / 262144) (0x80 + v / 4096 % 64) = true := by
          unfold cont2ok4
          by_cases hf0 : (0xF0 + v / 262144 : ℕ) = 0xF0
          · rw [if_pos hf0]
            simp only [decide_eq_true_eq]
            omega
          · rw [if_neg hf0]
            by_cases hf4 : (0xF0 + v / 262144 : ℕ) = 0xF4
            · rw [if_pos hf4]
              simp only [decide_eq_true_eq]
              omega
            · rw [if_neg hf4]
              exact isCont_true (by omega) (by omega)
        rw [if_neg (by omega), if_neg (by omega), if_neg (by omega), if_neg (by omega),
          if_pos (by omega), if_pos hc24, if_pos (isCont_true (by omega) (by omega)),
          if_pos (isCont_true (by omega) (by omega)),
          show (0xF0 + v / 262144 - 0xF0) * 262144 + (0x80 + v / 4096 % 64 - 0x80) * 4096 +
            (0x80 + v / 64 % 64 - 0x80) * 64 + (0x80 + v % 64 - 0x80) = v from by omega]

theorem utf8DecodeGo_encodeChar_truncated (v : ℕ) (hv : ValidCp v) (f j : ℕ)
    (hj : j < (utf8EncodeChar v).length) :
    utf8DecodeGo f ((utf8EncodeChar v).take j) = [] := by
  obtain ⟨hlt, hsur⟩ := hv
  by_cases h1 : v < 0x80
  · rw [utf8EncodeChar, if_pos h1] at hj ⊢
    simp only [List.length_cons, List.length_nil] at hj
    have hj0 : j = 0 := by omega
    subst hj0
    rw [List.take_zero]
    exact utf8DecodeGo_nil f
  · by_cases h2 : v < 0x800
    · rw [utf8EncodeChar, if_neg h1, if_pos h2] at hj ⊢
      simp only [List.length_cons, List.length_nil] at hj
      match j, hj with
      | 0, _ =>
        rw [List.take_zero]
        exact utf8DecodeGo_nil f
      | 1, _ =>
        rw [List.take_succ_cons, List.take_zero]
        cases f with
        | zero => rfl
        | succ g =>
          simp only [utf8DecodeGo]
          rw [if_neg (by omega), if_neg (by omega), if_pos (by omega)]
    · by_cases h3 : v < 0x10000
      · have hc23 : cont2ok3 (0xE0 + v / 4096) (0x80 + v / 64 % 64) = true := by
          unfold cont2ok3
          by_cases he0 : (0xE0 + v / 4096 : ℕ) = 0xE0
          · rw [if_pos he0]
            simp only [decide_eq_true_eq]
            omega
          · rw [if_neg he0]
            by_cases hed : (0xE0 + v / 4096 : ℕ) = 0xED
            · rw [if_pos hed]
              simp only [decide_eq_true_eq]
              omega
            · rw [if_neg hed]
              exact isCont_true (by omega) (by omega)
        rw [utf8EncodeChar, if_neg h1, if_neg h2, if_pos h3] at hj ⊢
        simp only [List.length_cons, List.length_nil] at hj
        match j, hj with
        | 0, _ =>
          rw [List.take_zero]
          exact utf8DecodeGo_nil f
        | 1, _ =>
          rw [List.take_succ_cons, List.take_zero]
          cases f with
          | zero => rfl
          | succ g =>
            simp only [utf8DecodeGo]
            rw [if_neg (by omega), if_neg (by omega), if_neg (by omega), if_pos (by omega)]
        | 2, _ =>
          rw [List.take_succ_cons, List.take_succ_cons, List.take_zero]
          cases f with
          | zero => rfl
          | succ g =>
            simp only [utf8DecodeGo]
            rw [if_neg (by omega), if_neg (by omega), if_neg (by omega), if_pos (by omega),
              if_pos hc23]
      · have hc24 : cont2ok4 (0xF0 + v / 262144) (0x80 + v / 4096 % 64) = true := by
          unfold cont2ok4
          by_cases hf0 : (0xF0 + v / 262144 : ℕ) = 0xF0
          · rw [if_pos hf0]
            simp only [decide_eq_true_eq]
            omega
          · rw [if_neg hf0]
            by_cases hf4 : (0xF0 + v / 262144 : ℕ) = 0xF4
            · rw [if_pos hf4]
              simp only [decide_eq_true_eq]
              omega
            · rw [if_neg hf4]
              exact isCont_true (by omega) (by omega)
        rw [utf8EncodeChar, if_neg h1, if_neg h2, if_neg h3] at hj ⊢
        simp only [List.length_cons, List.length_nil] at hj
        match j, hj with
        | 0, _ =>
          rw [List.take_zero]
          exact utf8DecodeGo_nil f
        | 1, _ =>
          rw [List.take_succ_cons, List.take_zero]
          cases f with
          | zero => rfl
          | succ g =>
            simp only [utf8DecodeGo]
            rw [if_neg (by omega), if_neg (by omega), if_neg (by omega), if_neg (by omega),
              if_pos (by omega)]
        | 2, _ =>
          rw [List.take_succ_cons, List.take_succ_cons, List.take_zero]
          cases f with
          | zero => rfl
          | succ g =>
            simp only [utf8DecodeGo]
            rw [if_neg (by omega), if_neg (by omega), if_neg (by omega), if_neg (by omega),
              if_pos (by omega), if_pos hc24]
        | 3, _ =>
          rw [List.take_succ_cons, List.take_succ_cons, List.take_succ_cons, List.take_zero]
          cases f with
          | zero => rfl
          | succ g =>
            simp only [utf8DecodeGo]
            rw [if_neg (by omega), if_neg (by omega), if_neg (by omega), if_neg (by omega),
              if_pos (by omega), if_pos hc24, if_pos (isCont_true (by omega) (by omega))]

theorem utf8DecodeGo_take : ∀ (s : List ℕ), (∀ v ∈ s, ValidCp v) →
    ∀ n f : ℕ, ((utf8Encode s).take n).length ≤ f →
    ∃ k, utf8DecodeGo f ((utf8Encode s).take n) = s.take k ∧
      (utf8Encode (s.take k)).length ≤ n := by
  intro s
  induction s with
  | nil =>
    intro _ n f _
    refine ⟨0, ?_, by simp [utf8Encode]⟩
    show utf8DecodeGo f (([] : List ℕ).take n) = ([] : List ℕ).take 0
    rw [List.take_nil, List.take_zero]
    exact utf8DecodeGo_nil f
  | cons v s' ih =>
    intro hval n f hf
    have hv : ValidCp v := hval v (List.mem_cons_self _ _)
    have hL := utf8EncodeChar_len v
    by_cases hn : n < (utf8EncodeChar v).length
    · have htake : (utf8Encode (v :: s')).take n = (utf8EncodeChar v).take n := by
        rw [show utf8Encode (v :: s') = utf8EncodeChar v ++ utf8Encode s' from rfl,
          List.take_append_eq_append_take,
          show n - (utf8EncodeChar v).length = 0 from by omega,
          List.take_zero, List.append_nil]
      refine ⟨0, ?_, by simp [utf8Encode]⟩
      rw [htake, List.take_zero]
      exact utf8DecodeGo_encodeChar_truncated v hv f n hn
    · have htake : (utf8Encode (v :: s')).take n =
          utf8EncodeChar v ++ (utf8Encode s').take (n - (utf8EncodeChar v).length) := by
        rw [show utf8Encode (v :: s') = utf8EncodeChar v ++ utf8Encode s' from rfl,
          List.take_append_eq_append_take,
          List.take_of_length_le (by omega)]
      have hflen : (utf8EncodeChar v).length +
          ((utf8Encode s').take (n - (utf8EncodeChar v).length)).length ≤ f := by
        rw [htake, List.length_append] at hf
        omega
      obtain ⟨g, rfl⟩ : ∃ g, f = g + 1 := ⟨f - 1, by omega⟩
      rw [htake, utf8DecodeGo_encodeChar v hv g _]
      obtain ⟨k, hk1, hk2⟩ := ih (fun u hu => hval u (List.mem_cons_of_mem _ hu))
        (n - (utf8EncodeChar v).length) g (by omega)
      refine ⟨k + 1, ?_, ?_⟩
      · rw [hk1, List.take_succ_cons]
      · rw [List.take_succ_cons,
          show utf8Encode (v :: s'.take k) = utf8EncodeChar v ++ utf8Encode (s'.take k)
            from rfl,
          List.length_append]
        omega

/-- C2 (corrected: requires a positive `max_bytes`; the code's truthiness test
`if max_bytes and ...` treats `max_bytes = 0` as "unset", so a zero budget
neither truncates nor forces `has_more`).  When a positive `max_bytes` is
exceeded by the payload's UTF-8 encoding, the returned chunk's text is a
whole-character prefix of the payload (no multi-byte sequence is split, so
the re-decode drops no character mid-sequence and cannot fail), its UTF-8
byte length is at most `max_bytes`, and `has_more` is forced to true
regardless of the upstream flag. -/
theorem get_log_chunk_truncation_safe (payload : List ℕ)
    (hval : ∀ v ∈ payload, ValidCp v) (next_start : ℤ) (upstream_more : Bool)
    (start : ℤ) (m : ℕ) (hm : 0 < m)
    (hexceeds : m < (utf8Encode payload).length) :
    ∃ k, (get_log_chunk payload next_start upstream_more start (some m)).text =
        payload.take k ∧
      (utf8Encode ((get_log_chunk payload next_start upstream_more start
        (some m)).text)).length ≤ m ∧
      (get_log_chunk payload next_start upstream_more start (some m)).has_more = true := by
  have hcond : m ≠ 0 ∧ m < (utf8Encode payload).length := ⟨by omega, hexceeds⟩
  have htext : (get_log_chunk payload next_start upstream_more start (some m)).text =
      utf8DecodeIgnore ((utf8Encode payload).take m) := by
    simp only [get_log_chunk]
    rw [if_pos hcond]
  have hmore : (get_log_chunk payload next_start upstream_more start
      (some m)).has_more = true := by
    simp only [get_log_chunk]
    rw [if_pos hcond]
  obtain ⟨k, hk1, hk2⟩ := utf8DecodeGo_take payload hval m
    ((utf8Encode payload).take m).length le_rfl
  refine ⟨k, ?_, ?_, hmore⟩
  · rw [htext]
    exact hk1
  · rw [htext, show utf8DecodeIgnore ((utf8Encode payload).take m) = payload.take k
      from hk1]
    exact hk2

theorem get_log_chunk_truncation_witness :
    ∃ k, (get_log_chunk [104, 8211] 4 false 0 (some 2)).text = ([104, 8211] : List ℕ).take k ∧
      (utf8Encode ((get_log_chunk [104, 8211] 4 false 0 (some 2)).text)).length ≤ 2 ∧
      (get_log_chunk [104, 8211] 4 false 0 (some 2)).has_more = true :=
  get_log_chunk_truncation_safe [104, 8211] (by decide) 4 false 0 2 (by decide) (by decide)

theorem get_log_chunk_zero_budget_cex :
    (get_log_chunk [97] 1 false 0 (some 0)).has_more = false ∧
    (utf8Encode ((get_log_chunk [97] 1 false 0 (some 0)).text)).length = 1 := by
  decide

/-! ## Lemmas about format_build serialized sizes (C8) -/

/-- C8 (corrected).  For every build object on which both projections
succeed, the `ids`-mode output of `format_build` serializes to at most as
many bytes as the `summary`-mode output: `summary` repeats all three `ids`
fields (`number`, `result`, `url`, with identical values) and adds five more
entries.  The claim's second comparison fails: `full` mode returns the raw
build object, which can be smaller than its own summary (see the
counterexample). -/
theorem format_build_ids_le_summary (rt : ℤ → String) (build : JValue)
    (I S : JValue) (hI : format_build rt build .ids = some I)
    (hS : format_build rt build .summary = some S) :
    jsonLen I ≤ jsonLen S := by
  simp only [format_build] at hI hS
  unfold format_build_ids at hI
  unfold format_build_summary at hS
  cases hn : dget build "number" with
  | none => simp only [hn] at hI; cases hI
  | some n =>
  cases hu : dget build "url" with
  | none => simp only [hn, hu] at hI; cases hI
  | some u =>
  simp only [hn, hu] at hI hS
  cases hd : asInt (dgetD build "duration" (.num 0)) with
  | none => simp only [hn, hu, hd] at hS; cases hS
  | some dur =>
  cases ht : asInt (dgetD build "timestamp" (.num 0)) with
  | none => simp only [hn, hu, hd, ht] at hS; cases hS
  | some ts =>
  simp only [hd, ht] at hS
  by_cases hobj : isObjSpine (dgetD build "changeSet" .objNil) = true
  case neg =>
    rw [if_neg hobj] at hS
    cases hS
  case pos =>
  rw [if_pos hobj] at hS
  cases hc : pyLen (dgetD (dgetD build "changeSet" .objNil) "items" .arrNil) with
  | none => simp only [hc] at hS; cases hS
  | some changes =>
  cases ha : pyLen (dgetD build "artifacts" .arrNil) with
  | none => simp only [hc, ha] at hS; cases hS
  | some arts =>
  simp only [hc, ha, Option.some.injEq] at hI hS
  subst hI
  subst hS
  have k1 : jstrLen "number" = 8 := rfl
  have k2 : jstrLen "url" = 5 := rfl
  have k3 : jstrLen "result" = 8 := rfl
  have k4 : jstrLen "duration" = 10 := rfl
  have k5 : jstrLen "timestamp" = 11 := rfl
  have k6 : jstrLen "building" = 10 := rfl
  have k7 : jstrLen "changes_count" = 15 := rfl
  have k8 : jstrLen "artifacts_count" = 17 := rfl
  simp only [jsonLen, k1, k2, k3, k4, k5, k6, k7, k8]
  omega

theorem format_build_size_witness :
    jsonLen (JValue.objCons "number" (.num 1) (.objCons "url" (.str "u")
      (.objCons "result" .null .objNil))) ≤
    jsonLen (JValue.objCons "number" (.num 1) (.objCons "result" .null
      (.objCons "duration" (.str (format_duration 0))
      (.objCons "timestamp" (.str "")
      (.objCons "building" (.bool false)
      (.objCons "url" (.str "u")
      (.objCons "changes_count" (.num 0)
      (.objCons "artifacts_count" (.num 0) .objNil)))))))) :=
  format_build_ids_le_summary (fun _ => "") (JValue.objCons "number" (.num 1)
    (.objCons "url" (.str "u") .objNil)) _ _ (by decide) (by decide)

theorem format_build_full_lt_summary_cex :
    jsonLen ((format_build (fun _ => "") (JValue.objCons "number" (.num 1)
      (.objCons "url" (.str "u") .objNil)) .full).getD .null) <
    jsonLen ((format_build (fun _ => "") (JValue.objCons "number" (.num 1)
      (.objCons "url" (.str "u") .objNil)) .summary).getD .null) := by
  decide
